import Mathlib

/-!
Verification of the blueprint extraction / conversion pipeline
(`scripts/convert/`: `common.py`, `parse_latex.py`, `modify_lean.py`).

The Python sources are shallowly embedded below.  Pure functions become Lean
functions on `String` / `List Char`; Python `set`s become `Finset String`;
fallible operations (dictionary lookup that may raise `KeyError`) return
`Except`/`Option`; the recursion in `topological_sort` and `read_latex_file`
(terminating in Python because the visited set grows) is modelled with a fuel
parameter that is provably sufficient.
-/

namespace Blueprint

/-! ## Python string primitives -/

/-- Characters stripped by Python `str.strip()` (ASCII whitespace; the claims
only involve ASCII text). -/
def pyIsSpace (c : Char) : Bool :=
  c = ' ' || c = '\t' || c = '\n' || c = '\r' || c = '\x0b' || c = '\x0c'

def pyStripList (cs : List Char) : List Char :=
  ((cs.dropWhile pyIsSpace).reverse.dropWhile pyIsSpace).reverse

/-- Python `str.strip()`. -/
def pyStrip (s : String) : String :=
  ⟨pyStripList s.data⟩

/-- Line-break characters of Python `str.splitlines` other than
`'\n'`/`'\r'` (which are handled explicitly, including `"\r\n"`). -/
def pyLineBreakChar (c : Char) : Bool :=
  c = '\x0b' || c = '\x0c' || c = '\x1c' || c = '\x1d' || c = '\x1e' ||
    c = '\x85' || c = ' ' || c = ' '

/-- All line-break characters of Python `str.splitlines`. -/
def pyLineBreak (c : Char) : Bool :=
  c = '\n' || c = '\r' || pyLineBreakChar c

/-- Python `str.splitlines(keepends=True)`; `acc` holds the (reversed)
characters of the current unfinished line.  A `"\r\n"` pair counts as a
single line ending. -/
def pySplitlinesKeepends : List Char → List Char → List (List Char)
  | acc, [] => if acc.isEmpty then [] else [acc.reverse]
  | acc, '\r' :: '\n' :: rest => (acc.reverse ++ ['\r', '\n']) :: pySplitlinesKeepends [] rest
  | acc, '\r' :: rest => (acc.reverse ++ ['\r']) :: pySplitlinesKeepends [] rest
  | acc, c :: rest =>
    if pyLineBreak c then (acc.reverse ++ [c]) :: pySplitlinesKeepends [] rest
    else pySplitlinesKeepends (c :: acc) rest

/-- The lines of `pySplitlinesKeepends` partition the input. -/
theorem pySplitlinesKeepends_flatten (acc cs : List Char) :
    (pySplitlinesKeepends acc cs).flatten = acc.reverse ++ cs := by
  induction acc, cs using pySplitlinesKeepends.induct with
  | case1 acc h => simp_all [pySplitlinesKeepends, List.isEmpty_iff]
  | case2 acc h => simp_all [pySplitlinesKeepends, List.isEmpty_iff]
  | case3 acc rest ih => simp_all [pySplitlinesKeepends]
  | case4 acc rest hne ih => simp_all [pySplitlinesKeepends]
  | case5 acc c rest hne hnr hbr ih => simp_all [pySplitlinesKeepends]
  | case6 acc c rest hne hnr hbr ih => simp_all [pySplitlinesKeepends]

/-! ## Data model (`common.py`) -/

/-- `_quote` / `json.dumps(s, ensure_ascii=False)`: escaping of one character. -/
def hexDigit (n : Nat) : Char :=
  if n < 10 then Char.ofNat (48 + n) else Char.ofNat (87 + n)

def jsonEscapeChar (c : Char) : List Char :=
  if c = '"' then ['\\', '"']
  else if c = '\\' then ['\\', '\\']
  else if c = '\n' then ['\\', 'n']
  else if c = '\r' then ['\\', 'r']
  else if c = '\t' then ['\\', 't']
  else if c = '\x08' then ['\\', 'b']
  else if c = '\x0c' then ['\\', 'f']
  else if c.toNat < 32 then ['\\', 'u', '0', '0', hexDigit (c.toNat / 16), hexDigit (c.toNat % 16)]
  else [c]

/-- `common._quote`: a double-quoted JSON string. -/
def jsonQuote (s : String) : String :=
  "\"" ++ ⟨(s.data.map jsonEscapeChar).flatten⟩ ++ "\""

def spacesStr (n : Nat) : String :=
  ⟨List.replicate n ' '⟩

/-- `common.make_docstring`. -/
def make_docstring (text : String) (indent : Nat) : String :=
  let text := pyStrip text
  let text := text.replace "\n" ("\n" ++ spacesStr indent)
  if text.contains '\n' then
    "/--\n" ++ spacesStr indent ++ text ++ "\n" ++ spacesStr indent ++ "-/"
  else
    "/-- " ++ text ++ " -/"

/-- `common.NodePart` (as constructed in `parse_latex.py`, which also carries
the transient pre-resolution label set `uses_raw`). -/
structure NodePart where
  lean_ok : Bool
  text : String
  uses : Finset String
  uses_raw : Finset String
  latex_env : String
deriving DecidableEq

/-- `common.Node`. -/
structure Node where
  name : String
  statement : NodePart
  proof : Option NodePart
  not_ready : Bool
  discussion : Option Int
  title : Option String
deriving DecidableEq

/-- Python truthiness of an optional string (`if self.title:`). -/
def pyTruthyStr : Option String → Bool
  | none => false
  | some s => !s.isEmpty

/-- Python truthiness of an optional int (`if self.discussion:`). -/
def pyTruthyInt : Option Int → Bool
  | none => false
  | some n => n != 0

/-- Iteration order used when joining a Python `set` of identifiers
(`', '.join(...)`); the Python order is unspecified, we fix a sorted order. -/
def sortedUses (s : Finset String) : List String :=
  s.sort (· ≤ ·)

/-- The `configs` list built by `common.Node.to_lean_attribute`. -/
def Node.to_lean_attribute_configs (n : Node)
    (add_uses add_proof_text add_proof_uses : Bool) : List String :=
  (if pyTruthyStr n.title then [jsonQuote (n.title.getD "")] else []) ++
  (if add_uses = true ∧ n.statement.uses ≠ ∅ then
    ["(uses := [" ++ String.intercalate ", " (sortedUses n.statement.uses) ++ "])"]
  else []) ++
  (match n.proof with
   | some p =>
     (if add_proof_text = true then
       ["(proof := " ++ make_docstring p.text 2 ++ ")"] else []) ++
     (if add_proof_uses = true ∧ p.uses ≠ ∅ then
       ["(proofUses := [" ++ String.intercalate ", " (sortedUses p.uses) ++ "])"]
     else [])
   | none => []) ++
  (if n.not_ready = true then ["(notReady := true)"] else []) ++
  (if pyTruthyInt n.discussion then ["(discussion := " ++ toString (n.discussion.getD 0) ++ ")"] else []) ++
  (if (n.proof = none ∧ n.statement.latex_env ≠ "definition") ∨
      (n.proof ≠ none ∧ n.statement.latex_env ≠ "theorem") then
    ["(latexEnv := " ++ jsonQuote n.statement.latex_env ++ ")"]
  else [])

/-- `common.Node.to_lean_attribute`. -/
def Node.to_lean_attribute (n : Node)
    (add_uses add_proof_text add_proof_uses : Bool) : String :=
  "blueprint" ++
    String.join ((n.to_lean_attribute_configs add_uses add_proof_text add_proof_uses).map
      (fun c => "\n  " ++ c))

theorem jsonQuote_take9_ne (s : String) :
    (jsonQuote s).data.take 9 ≠ "(latexEnv".data := by
  intro h
  have h3 : (some '"' : Option Char) = some '(' := congrArg List.head? h
  exact absurd h3 (by decide)

theorem ne_latexEnv_of_head (p mid post : String)
    (hlen : 9 ≤ p.data.length) (h9 : p.data.take 9 ≠ "(latexEnv".data) :
    (p ++ mid ++ post).data.take 9 ≠ "(latexEnv".data := by
  rw [String.data_append, String.data_append, List.append_assoc,
    List.take_append_eq_append_take, Nat.sub_eq_zero_of_le hlen, List.take_zero,
    List.append_nil]
  exact h9

/-- Claim C6: the attribute expression generated by `Node.to_lean_attribute`
contains an explicit `latexEnv` entry (a config starting with `"(latexEnv"`)
iff the environment/proof combination disagrees with the default convention:
no proof with environment `"definition"` omits it, a proof with environment
`"theorem"` omits it, every other combination includes it. -/
theorem to_lean_attribute_latexEnv_iff (n : Node) :
    (∃ c ∈ n.to_lean_attribute_configs true true true,
        c.data.take 9 = "(latexEnv".data) ↔
      ((n.proof = none ∧ n.statement.latex_env ≠ "definition") ∨
       (n.proof ≠ none ∧ n.statement.latex_env ≠ "theorem")) := by
  constructor
  · rintro ⟨c, hc, htake⟩
    simp only [Node.to_lean_attribute_configs, List.mem_append] at hc
    rcases hc with ((((hc | hc) | hc) | hc) | hc) | hc
    · split at hc
      · simp only [List.mem_singleton] at hc
        subst hc
        exact absurd htake (jsonQuote_take9_ne _)
      · simp at hc
    · split at hc
      · simp only [List.mem_singleton] at hc
        subst hc
        exact absurd htake (ne_latexEnv_of_head _ _ _ (by decide) (by decide))
      · simp at hc
    · rcases hp : n.proof with _ | p <;> simp only [hp] at hc
      · simp at hc
      · simp only [List.mem_append] at hc
        rcases hc with hc | hc
        · split at hc
          · simp only [List.mem_singleton] at hc
            subst hc
            exact absurd htake (ne_latexEnv_of_head _ _ _ (by decide) (by decide))
          · simp at hc
        · split at hc
          · simp only [List.mem_singleton] at hc
            subst hc
            exact absurd htake (ne_latexEnv_of_head _ _ _ (by decide) (by decide))
          · simp at hc
    · split at hc
      · simp only [List.mem_singleton] at hc
        subst hc
        exact absurd htake (by decide)
      · simp at hc
    · split at hc
      · simp only [List.mem_singleton] at hc
        subst hc
        exact absurd htake (ne_latexEnv_of_head _ _ _ (by decide) (by decide))
      · simp at hc
    · by_cases hcond : (n.proof = none ∧ n.statement.latex_env ≠ "definition") ∨
        (n.proof ≠ none ∧ n.statement.latex_env ≠ "theorem")
      · exact hcond
      · rw [if_neg hcond] at hc
        simp at hc
  · intro hcond
    refine ⟨"(latexEnv := " ++ jsonQuote n.statement.latex_env ++ ")", ?_, rfl⟩
    simp only [Node.to_lean_attribute_configs]
    refine List.mem_append_right _ ?_
    rw [if_pos hcond]
    exact List.mem_singleton_self _

/-! ## `modify_lean.split_declaration` -/

/-- `common.Position` (wire form of `Lean.Position`). -/
structure Position where
  line : Nat
  column : Nat
deriving DecidableEq

/-- The absolute offset computed by `split_declaration` for one position:
the sum of the lengths of the first `line - 1` lines plus `column`. -/
def lineColOffset (source : String) (p : Position) : Nat :=
  (((pySplitlinesKeepends [] source.data).take (p.line - 1)).map List.length).sum + p.column

/-- `modify_lean.split_declaration`.  (Python indexes `lines[i]` and would
raise on an out-of-range line; the claims are restricted to in-bounds
positions, where `List.take` agrees.) -/
def split_declaration (source : String) (pos end_pos : Position) :
    String × String × String :=
  let start := lineColOffset source pos
  let stop := lineColOffset source end_pos
  (⟨source.data.take start⟩,
   ⟨(source.data.drop start).take (stop - start)⟩,
   ⟨source.data.drop stop⟩)

/-- Claim C4 (counterexample): with `line = 1, column = 1` on source
`"ab\ncd"`, the claimed 1-indexed-column reading would give the split
`("", "a", "b\ncd")`, but `split_declaration` does not decrement the column
and returns `("a", "b", "\ncd")`. -/
theorem split_declaration_not_column_one_indexed :
    split_declaration "ab\ncd" ⟨1, 1⟩ ⟨1, 2⟩ ≠ ("", "a", "b\ncd") ∧
    split_declaration "ab\ncd" ⟨1, 1⟩ ⟨1, 2⟩ = ("a", "b", "\ncd") := by
  constructor <;> decide

/-- Claim C4 (amended): for in-bounds positions, `split_declaration` treats
`line` as 1-indexed and `column` as 0-indexed: the prefix length (the absolute
start offset) is the sum of the lengths of the first `line - 1` lines plus
`column` (not `column - 1`), likewise for the end offset, and the three parts
reassemble the source. -/
theorem split_declaration_offsets (source : String) (pos end_pos : Position)
    (h₁ : lineColOffset source pos ≤ lineColOffset source end_pos)
    (h₂ : lineColOffset source end_pos ≤ source.data.length) :
    (split_declaration source pos end_pos).1.data.length = lineColOffset source pos ∧
    (split_declaration source pos end_pos).1.data.length +
      (split_declaration source pos end_pos).2.1.data.length = lineColOffset source end_pos ∧
    (split_declaration source pos end_pos).1 ++ (split_declaration source pos end_pos).2.1 ++
      (split_declaration source pos end_pos).2.2 = source := by
  set s := lineColOffset source pos with hs
  set e := lineColOffset source end_pos with he
  have hsl : s ≤ source.data.length := le_trans h₁ h₂
  refine ⟨?_, ?_, ?_⟩
  · simpa [split_declaration, ← hs, ← he] using hsl
  · simp only [split_declaration, ← hs, ← he, List.length_take, List.length_drop]
    rw [Nat.min_eq_left hsl, Nat.min_eq_left (by omega)]
    omega
  · apply String.ext
    simp only [split_declaration, ← hs, ← he, String.data_append]
    have hdrop : source.data.drop e = (source.data.drop s).drop (e - s) := by
      rw [List.drop_drop]
      congr 1
      omega
    rw [hdrop, List.append_assoc, List.take_append_drop, List.take_append_drop]

/-- Witness for `split_declaration_offsets` at source `"ab\ncd"`,
positions `(2, 1)`–`(2, 2)`. -/
theorem split_declaration_offsets_witness :
    (split_declaration "ab\ncd" ⟨2, 1⟩ ⟨2, 2⟩).1.data.length = lineColOffset "ab\ncd" ⟨2, 1⟩ ∧
    (split_declaration "ab\ncd" ⟨2, 1⟩ ⟨2, 2⟩).1.data.length +
      (split_declaration "ab\ncd" ⟨2, 1⟩ ⟨2, 2⟩).2.1.data.length = lineColOffset "ab\ncd" ⟨2, 2⟩ ∧
    (split_declaration "ab\ncd" ⟨2, 1⟩ ⟨2, 2⟩).1 ++ (split_declaration "ab\ncd" ⟨2, 1⟩ ⟨2, 2⟩).2.1 ++
      (split_declaration "ab\ncd" ⟨2, 1⟩ ⟨2, 2⟩).2.2 = "ab\ncd" :=
  split_declaration_offsets "ab\ncd" ⟨2, 1⟩ ⟨2, 2⟩ (by decide) (by decide)

/-! ## Cross-reference rewriting (`parse_latex.convert_ref_to_texttt`)

The regex `\\ref\s*\{([^\}]*)\}` and `re.sub` are embedded as an explicit
left-to-right scanner (`reSub`); the recursion is driven by a fuel argument
equal to the input length, which suffices because each step consumes at least
one character. -/

def stripPrefixChars : List Char → List Char → Option (List Char)
  | [], cs => some cs
  | _ :: _, [] => none
  | p :: ps, c :: cs => if c = p then stripPrefixChars ps cs else none

/-- Match the regex `\\CMD\s*\{([^\}]*)\}` at the start of `cs`: returns
(whole match, captured group, remainder after the match). -/
def matchCmdAt (cmd : List Char) (cs : List Char) : Option (List Char × List Char × List Char) :=
  match cs with
  | [] => none
  | c :: rest =>
    if c = '\\' then
      match stripPrefixChars cmd rest with
      | none => none
      | some rest2 =>
        let ws := rest2.takeWhile pyIsSpace
        match rest2.dropWhile pyIsSpace with
        | '{' :: rest4 =>
          let label := rest4.takeWhile (· != '}')
          match rest4.dropWhile (· != '}') with
          | '}' :: rest6 =>
            some ('\\' :: cmd ++ ws ++ '{' :: (label ++ ['}']), label, rest6)
          | _ => none
        | _ => none
    else none

/-- One `re.sub` pass: scan left to right, replacing each non-overlapping
match of `\\CMD\s*\{([^\}]*)\}` by `repl (whole match) (captured group)`. -/
def subCmdFuel (cmd : List Char) (repl : List Char → List Char → List Char) :
    Nat → List Char → List Char
  | 0, cs => cs
  | _ + 1, [] => []
  | fuel + 1, c :: rest =>
    match matchCmdAt cmd (c :: rest) with
    | some (g, label, rest2) => repl g label ++ subCmdFuel cmd repl fuel rest2
    | none => c :: subCmdFuel cmd repl fuel rest

def reSub (cmd : List Char) (repl : List Char → List Char → List Char)
    (cs : List Char) : List Char :=
  subCmdFuel cmd repl cs.length cs

/-- Dictionary lookup `label_to_node[l]`; the association list stores the
most recent binding first. -/
def lookupLabel (m : List (String × Node)) (l : String) : Option Node :=
  (m.find? (fun p => p.1 == l)).map (fun p => p.2)

/-- The nested `replace_ref` function of `convert_ref_to_texttt`: `g0` is the
whole match (`match.group(0)`), `label` the captured group. -/
def replace_ref (m : List (String × Node)) (g0 label : List Char) : List Char :=
  match lookupLabel m ⟨label⟩ with
  | some node => "\\texttt\x7b".data ++ node.name.data ++ ['\x7d']
  | none =>
    if label.contains '_' then "\\texttt\x7b".data ++ label ++ ['\x7d']
    else g0

/-- `parse_latex.convert_ref_to_texttt`. -/
def convert_ref_to_texttt (m : List (String × Node)) (source : String) : String :=
  pyStrip ⟨reSub "ref".data (replace_ref m) source.data⟩

theorem subCmdFuel_nil (cmd : List Char) (repl : List Char → List Char → List Char) :
    ∀ fuel, subCmdFuel cmd repl fuel [] = [] := by
  intro fuel
  cases fuel <;> rfl

theorem stripPrefixChars_self (cmd rest : List Char) :
    stripPrefixChars cmd (cmd ++ rest) = some rest := by
  induction cmd with
  | nil => rfl
  | cons c cs ih => simp [stripPrefixChars, ih]

theorem takeWhile_append_of_all {p : Char → Bool} {l : List Char} (l' : List Char)
    (h : ∀ c ∈ l, p c = true) :
    (l ++ l').takeWhile p = l ++ l'.takeWhile p := by
  induction l with
  | nil => rfl
  | cons c cs ih => simp_all [List.takeWhile_cons]

theorem dropWhile_append_of_all {p : Char → Bool} {l : List Char} (l' : List Char)
    (h : ∀ c ∈ l, p c = true) :
    (l ++ l').dropWhile p = l'.dropWhile p := by
  induction l with
  | nil => rfl
  | cons c cs ih => simp_all [List.dropWhile_cons]

/-- Evaluation of `matchCmdAt` on an exact command occurrence with no
whitespace and a brace-free label. -/
theorem matchCmdAt_at_match (cmd label rest : List Char)
    (h : ∀ c ∈ label, (c != '}') = true) :
    matchCmdAt cmd ('\\' :: (cmd ++ '{' :: (label ++ '}' :: rest))) =
      some ('\\' :: cmd ++ '{' :: (label ++ ['}']), label, rest) := by
  have htw : (label ++ '}' :: rest).takeWhile (· != '}') = label := by
    rw [takeWhile_append_of_all ('}' :: rest) h]
    simp [List.takeWhile_cons]
  have hdw : (label ++ '}' :: rest).dropWhile (· != '}') = '}' :: rest := by
    rw [dropWhile_append_of_all ('}' :: rest) h]
    simp [List.dropWhile_cons]
  simp [matchCmdAt, stripPrefixChars_self, List.takeWhile_cons, List.dropWhile_cons,
    pyIsSpace, htw, hdw]

theorem matchCmdAt_none_of_ne (cmd : List Char) (c : Char) (rest : List Char)
    (h : c ≠ '\\') : matchCmdAt cmd (c :: rest) = none := by
  simp [matchCmdAt, h]

/-- Whether the pattern `\\CMD\s*\{([^\}]*)\}` matches anywhere in `cs`. -/
def hasCmd (cmd : List Char) : List Char → Bool
  | [] => false
  | c :: rest => (matchCmdAt cmd (c :: rest)).isSome || hasCmd cmd rest

theorem hasCmd_false_of_no_backslash (cmd : List Char) (cs : List Char)
    (h : ∀ c ∈ cs, c ≠ '\\') : hasCmd cmd cs = false := by
  induction cs with
  | nil => rfl
  | cons c rest ih =>
    simp [hasCmd, matchCmdAt_none_of_ne cmd c rest (h c (by simp)),
      ih (fun d hd => h d (by simp [hd]))]

theorem hasCmd_cons_false (cmd : List Char) (c : Char) (rest : List Char)
    (h1 : (matchCmdAt cmd (c :: rest)).isSome = false) (h2 : hasCmd cmd rest = false) :
    hasCmd cmd (c :: rest) = false := by
  simp [hasCmd, h1, h2]

theorem subCmdFuel_id_of_not_hasCmd (cmd : List Char)
    (repl : List Char → List Char → List Char) :
    ∀ fuel cs, hasCmd cmd cs = false → subCmdFuel cmd repl fuel cs = cs := by
  intro fuel
  induction fuel with
  | zero => intro cs _; rfl
  | succ n ih =>
    intro cs h
    cases cs with
    | nil => rfl
    | cons c rest =>
      rcases h2 : matchCmdAt cmd (c :: rest) with _ | v
      · have h3 : hasCmd cmd rest = false := by
          simpa [hasCmd, h2] using h
        simp [subCmdFuel, h2, ih rest h3]
      · rw [hasCmd, h2] at h
        simp at h

theorem reSub_single (cmd : List Char) (repl : List Char → List Char → List Char)
    (label : List Char) (h : ∀ c ∈ label, (c != '}') = true) :
    reSub cmd repl ('\\' :: (cmd ++ '{' :: (label ++ ['}']))) =
      repl ('\\' :: cmd ++ '{' :: (label ++ ['}'])) label := by
  unfold reSub
  simp only [List.length_cons]
  rw [subCmdFuel]
  rw [show (label ++ ['}'] : List Char) = label ++ '}' :: [] from rfl,
    matchCmdAt_at_match cmd label [] h]
  simp [subCmdFuel_nil]

theorem pyStripList_of_ends (a b : Char) (mid : List Char)
    (ha : pyIsSpace a = false) (hb : pyIsSpace b = false) :
    pyStripList (a :: (mid ++ [b])) = a :: (mid ++ [b]) := by
  simp [pyStripList, List.dropWhile_cons, ha, hb]

theorem pyStrip_backslash_brace (mid : List Char) :
    pyStripList ('\\' :: (mid ++ ['}'])) = '\\' :: (mid ++ ['}']) :=
  pyStripList_of_ends '\\' '}' mid rfl rfl

/-- Claim C3 (amended): the Reference Resolver rewrites only `\ref`
references in node text bodies: a `\ref` whose label maps to a known node
becomes `\texttt` of the node's canonical name; an unknown label containing
an underscore is still wrapped in `\texttt`; any other `\ref` is left
untouched; and the other five cross-reference commands (`\cref`, `\Cref`,
`\vref`, `\eqref`, `\autoref`) are never rewritten. -/
theorem convert_ref_to_texttt_spec (m : List (String × Node)) (label : String)
    (hlab : '}' ∉ label.data) :
    ((∀ node, lookupLabel m label = some node →
        convert_ref_to_texttt m ("\\ref\x7b" ++ label ++ "\x7d") =
          "\\texttt\x7b" ++ node.name ++ "\x7d") ∧
     (lookupLabel m label = none → label.data.contains '_' = true →
        convert_ref_to_texttt m ("\\ref\x7b" ++ label ++ "\x7d") =
          "\\texttt\x7b" ++ label ++ "\x7d") ∧
     (lookupLabel m label = none → label.data.contains '_' = false →
        convert_ref_to_texttt m ("\\ref\x7b" ++ label ++ "\x7d") =
          "\\ref\x7b" ++ label ++ "\x7d")) ∧
    (∀ cmd ∈ (["cref", "Cref", "vref", "eqref", "autoref"] : List String),
      (∀ c ∈ label.data, c ≠ '\\') →
        convert_ref_to_texttt m ("\\" ++ cmd ++ "\x7b" ++ label ++ "\x7d") =
          "\\" ++ cmd ++ "\x7b" ++ label ++ "\x7d") := by
  have hlab' : ∀ c ∈ label.data, (c != '}') = true := by
    intro c hc
    simp only [bne_iff_ne, ne_eq]
    rintro rfl
    exact hlab hc
  have key : convert_ref_to_texttt m ("\\ref\x7b" ++ label ++ "\x7d") =
      pyStrip ⟨replace_ref m ('\\' :: "ref".data ++ '{' :: (label.data ++ ['}'])) label.data⟩ := by
    show pyStrip ⟨reSub "ref".data (replace_ref m)
      ('\\' :: ("ref".data ++ '{' :: (label.data ++ ['}'])))⟩ = _
    rw [reSub_single "ref".data (replace_ref m) label.data hlab']
  refine ⟨⟨?_, ?_, ?_⟩, ?_⟩
  · intro node hl
    rw [key]
    have hl' : lookupLabel m ⟨label.data⟩ = some node := hl
    apply String.ext
    show pyStripList (replace_ref m _ _) = _
    rw [replace_ref, hl']
    exact pyStrip_backslash_brace ("texttt\x7b".data ++ node.name.data)
  · intro hl hu
    rw [key]
    have hl' : lookupLabel m ⟨label.data⟩ = none := hl
    apply String.ext
    show pyStripList (replace_ref m _ _) = _
    rw [replace_ref, hl', if_pos hu]
    exact pyStrip_backslash_brace ("texttt\x7b".data ++ label.data)
  · intro hl hu
    rw [key]
    have hl' : lookupLabel m ⟨label.data⟩ = none := hl
    apply String.ext
    show pyStripList (replace_ref m _ _) = _
    rw [replace_ref, hl', if_neg (by rw [hu]; simp)]
    exact pyStrip_backslash_brace ("ref\x7b".data ++ label.data)
  · intro cmd hcmd hnb
    have htail : ∀ (pre : List Char), (∀ c ∈ pre, c ≠ '\\') →
        ∀ c ∈ pre ++ '{' :: (label.data ++ ['}']), c ≠ '\\' := by
      intro pre hpre c hc
      rcases List.mem_append.1 hc with hc | hc
      · exact hpre c hc
      · rcases List.mem_cons.1 hc with rfl | hc
        · decide
        · rcases List.mem_append.1 hc with hc | hc
          · exact hnb c hc
          · simp only [List.mem_singleton] at hc
            subst hc
            decide
    have huntouched : ∀ (c0 : Char) (tail : List Char), c0 ≠ 'r' → c0 ≠ '\\' →
        (∀ c ∈ tail, c ≠ '\\') →
        reSub "ref".data (replace_ref m) ('\\' :: c0 :: tail) = '\\' :: c0 :: tail := by
      intro c0 tail h0 h00 ht
      apply subCmdFuel_id_of_not_hasCmd
      apply hasCmd_cons_false
      · simp [matchCmdAt, stripPrefixChars, h0]
      · exact hasCmd_false_of_no_backslash _ _ (by
          intro c hc
          rcases List.mem_cons.1 hc with rfl | hc2
          · exact h00
          · exact ht c hc2)
    fin_cases hcmd
    · apply String.ext
      show pyStripList (reSub "ref".data (replace_ref m)
        ('\\' :: 'c' :: ("ref".data ++ '{' :: (label.data ++ ['}'])))) = _
      rw [huntouched 'c' _ (by decide) (by decide) (htail "ref".data (by decide))]
      exact pyStrip_backslash_brace ("cref\x7b".data ++ label.data)
    · apply String.ext
      show pyStripList (reSub "ref".data (replace_ref m)
        ('\\' :: 'C' :: ("ref".data ++ '{' :: (label.data ++ ['}'])))) = _
      rw [huntouched 'C' _ (by decide) (by decide) (htail "ref".data (by decide))]
      exact pyStrip_backslash_brace ("Cref\x7b".data ++ label.data)
    · apply String.ext
      show pyStripList (reSub "ref".data (replace_ref m)
        ('\\' :: 'v' :: ("ref".data ++ '{' :: (label.data ++ ['}'])))) = _
      rw [huntouched 'v' _ (by decide) (by decide) (htail "ref".data (by decide))]
      exact pyStrip_backslash_brace ("vref\x7b".data ++ label.data)
    · apply String.ext
      show pyStripList (reSub "ref".data (replace_ref m)
        ('\\' :: 'e' :: ("qref".data ++ '{' :: (label.data ++ ['}'])))) = _
      rw [huntouched 'e' _ (by decide) (by decide) (htail "qref".data (by decide))]
      exact pyStrip_backslash_brace ("eqref\x7b".data ++ label.data)
    · apply String.ext
      show pyStripList (reSub "ref".data (replace_ref m)
        ('\\' :: 'a' :: ("utoref".data ++ '{' :: (label.data ++ ['}'])))) = _
      rw [huntouched 'a' _ (by decide) (by decide) (htail "utoref".data (by decide))]
      exact pyStrip_backslash_brace ("autoref\x7b".data ++ label.data)

/-- Claim C3 (counterexample): a `\cref` reference whose label contains an
underscore and is not in the node map is left untouched by the Reference
Resolver, although the claim requires it to be wrapped in `\texttt`. -/
theorem convert_ref_to_texttt_cref_untouched :
    convert_ref_to_texttt [] "\\cref\x7ba_b\x7d" = "\\cref\x7ba_b\x7d" ∧
    convert_ref_to_texttt [] "\\cref\x7ba_b\x7d" ≠ "\\texttt\x7ba_b\x7d" := by
  constructor <;> decide

/-- A sample formalization-confirmed node used to instantiate resolver
theorems. -/
def demoNode : Node :=
  { name := "foo_bar"
    statement :=
      { lean_ok := true, text := "", uses := ∅, uses_raw := ∅, latex_env := "theorem" }
    proof := none
    not_ready := false
    discussion := none
    title := none }

/-- Witness for `convert_ref_to_texttt_spec` on the map `lbl ↦ demoNode`. -/
theorem convert_ref_to_texttt_spec_witness :
    convert_ref_to_texttt [("lbl", demoNode)] ("\\ref\x7b" ++ "lbl" ++ "\x7d") =
      "\\texttt\x7b" ++ demoNode.name ++ "\x7d" :=
  (convert_ref_to_texttt_spec [("lbl", demoNode)] "lbl" (by decide)).1.1 demoNode (by decide)

/-! ## Identifier synthesis (`parse_latex.generate_new_lean_name`)

`uuid.uuid4().hex` is modelled by an oracle `uuids : Nat → String` (the
`k`-th random draw); the retry loop is driven by fuel `visited.card + 1`,
which suffices because candidates strictly grow in length. -/

/-- Python `base.split(":")[-1]`. -/
def afterLastColon (cs : List Char) : List Char :=
  (cs.reverse.takeWhile (· != ':')).reverse

/-- Python `.replace("-", "_").replace(" ", "_")` (pointwise). -/
def replaceHyphenSpace (c : Char) : Char :=
  if c = '-' ∨ c = ' ' then '_' else c

/-- The sanitization performed on a non-`None` `base`: keep the part after
the last colon, replace hyphens/spaces by underscores, prepend an underscore
if the result starts with a digit. -/
def sanitizeBase (b : String) : String :=
  match (afterLastColon b.data).map replaceHyphenSpace with
  | [] => ""
  | c :: rest => if c.isDigit then ⟨'_' :: c :: rest⟩ else ⟨c :: rest⟩

/-- Claim-side sanitization, following the claim's words: hyphens/spaces to
underscores and a digit-leading result prefixed with an underscore — with no
other characters of the label altered or removed. -/
def specSanitize (label : String) : String :=
  match label.data.map replaceHyphenSpace with
  | [] => ""
  | c :: rest => if c.isDigit then ⟨'_' :: c :: rest⟩ else ⟨c :: rest⟩

/-- The recursion of `generate_new_lean_name`; `k` indexes the next uuid
draw.  A re-entrant call passes `some (candidate ++ "_" ++ uuid)`, which is
re-sanitized, exactly as in the Python. -/
def genFuel (uuids : Nat → String) : Nat → Nat → Finset String → Option String → String
  | 0, _, _, base => (match base with | some s => sanitizeBase s | none => "")
  | fuel + 1, k, visited, base =>
    match base with
    | none =>
      let b := "node_" ++ uuids k
      if b ∈ visited then genFuel uuids fuel (k + 2) visited (some (b ++ "_" ++ uuids (k + 1)))
      else b
    | some s =>
      let b := sanitizeBase s
      if b ∈ visited then genFuel uuids fuel (k + 1) visited (some (b ++ "_" ++ uuids k))
      else b

/-- `parse_latex.generate_new_lean_name`. -/
def generate_new_lean_name (uuids : Nat → String) (visited : Finset String)
    (base : Option String) : String :=
  genFuel uuids (visited.card + 1) 0 visited base

/-- The modelled uuid draws are hex strings: no colon, hyphen or space. -/
def SaneUuids (uuids : Nat → String) : Prop :=
  ∀ k, ∀ c ∈ (uuids k).data, c ≠ ':' ∧ c ≠ '-' ∧ c ≠ ' '

/-- A string on which `sanitizeBase` is the identity when extended by
`"_" ++ uuid`: no colon/hyphen/space and no leading digit. -/
def SaneStr (b : String) : Prop :=
  (∀ c ∈ b.data, c ≠ ':' ∧ c ≠ '-' ∧ c ≠ ' ') ∧
  (∀ c, b.data.head? = some c → c.isDigit = false)

theorem takeWhile_eq_self_of_all {p : Char → Bool} {l : List Char}
    (h : ∀ c ∈ l, p c = true) : l.takeWhile p = l := by
  induction l with
  | nil => rfl
  | cons c cs ih => simp_all [List.takeWhile_cons]

theorem afterLastColon_of_no_colon (cs : List Char) (h : ∀ c ∈ cs, c ≠ ':') :
    afterLastColon cs = cs := by
  unfold afterLastColon
  rw [takeWhile_eq_self_of_all (by
    intro c hc
    simp only [bne_iff_ne, ne_eq]
    exact h c (List.mem_reverse.1 hc)), List.reverse_reverse]

theorem sanitizeBase_sane (s : String) : SaneStr (sanitizeBase s) := by
  have hmem : ∀ c ∈ (afterLastColon s.data).map replaceHyphenSpace,
      c ≠ ':' ∧ c ≠ '-' ∧ c ≠ ' ' := by
    intro c hc
    obtain ⟨d, hd, rfl⟩ := List.mem_map.1 hc
    have hd' : d ≠ ':' := by
      have := List.mem_takeWhile_imp (List.mem_reverse.1 hd)
      simpa using this
    unfold replaceHyphenSpace
    split
    · refine ⟨by decide, by decide, by decide⟩
    · next hne => exact ⟨hd', fun h1 => hne (Or.inl h1), fun h1 => hne (Or.inr h1)⟩
  unfold sanitizeBase
  rcases hl : (afterLastColon s.data).map replaceHyphenSpace with _ | ⟨c, rest⟩
  · exact ⟨by simp [String.data], by simp [String.data]⟩
  · rw [hl] at hmem
    show SaneStr (if c.isDigit then (⟨'_' :: c :: rest⟩ : String) else ⟨c :: rest⟩)
    by_cases hd : c.isDigit
    · rw [if_pos hd]
      refine ⟨?_, ?_⟩
      · intro e he
        simp only [String.data] at he
        rcases List.mem_cons.1 he with rfl | he2
        · exact ⟨by decide, by decide, by decide⟩
        · exact hmem e he2
      · intro e he
        simp only [String.data, List.head?] at he
        obtain rfl : '_' = e := by simpa using he
        decide
    · rw [if_neg hd]
      refine ⟨fun e he => hmem e he, ?_⟩
      intro e he
      simp only [String.data, List.head?] at he
      obtain rfl : c = e := by simpa using he
      simpa using hd

theorem saneStr_node (uuids : Nat → String) (hu : SaneUuids uuids) (k : Nat) :
    SaneStr ("node_" ++ uuids k) := by
  constructor
  · intro c hc
    rw [String.data_append] at hc
    rcases List.mem_append.1 hc with hc | hc
    · have hc' : c ∈ "node_".data := hc
      fin_cases hc' <;> exact ⟨by decide, by decide, by decide⟩
    · exact hu k c hc
  · intro c hc
    rw [String.data_append] at hc
    have h2 : (("node_".data ++ (uuids k).data).head?) = some 'n' := rfl
    rw [hc] at h2
    obtain rfl : c = 'n' := by simpa using h2
    decide

theorem sanitizeBase_append_id (b u : String)
    (hb : SaneStr b) (hu : ∀ c ∈ u.data, c ≠ ':' ∧ c ≠ '-' ∧ c ≠ ' ') :
    sanitizeBase (b ++ "_" ++ u) = b ++ "_" ++ u := by
  obtain ⟨hb1, hb2⟩ := hb
  have hall : ∀ c ∈ (b ++ "_" ++ u).data, c ≠ ':' ∧ c ≠ '-' ∧ c ≠ ' ' := by
    intro c hc
    rw [String.data_append, String.data_append] at hc
    rcases List.mem_append.1 hc with hc | hc
    · rcases List.mem_append.1 hc with hc | hc
      · exact hb1 c hc
      · have : c = '_' := by simpa using hc
        subst this
        exact ⟨by decide, by decide, by decide⟩
    · exact hu c hc
  have hcolon : afterLastColon (b ++ "_" ++ u).data = (b ++ "_" ++ u).data :=
    afterLastColon_of_no_colon _ (fun c hc => (hall c hc).1)
  have hmap : ((b ++ "_" ++ u).data).map replaceHyphenSpace = (b ++ "_" ++ u).data := by
    rw [show ((b ++ "_" ++ u).data).map replaceHyphenSpace =
        ((b ++ "_" ++ u).data).map id from List.map_congr_left (by
      intro c hc
      unfold replaceHyphenSpace
      rw [if_neg]
      · rfl
      · rintro (h1 | h1)
        · exact (hall c hc).2.1 h1
        · exact (hall c hc).2.2 h1), List.map_id]
  unfold sanitizeBase
  rw [hcolon, hmap]
  rcases hbd : b.data with _ | ⟨c0, brest⟩
  · have hshape : (b ++ "_" ++ u).data = '_' :: u.data := by
      rw [String.data_append, String.data_append, hbd]
      rfl
    rw [hshape]
    show (if ('_').isDigit = true then (⟨'_' :: '_' :: u.data⟩ : String) else ⟨'_' :: u.data⟩) = _
    rw [if_neg (by decide)]
    apply String.ext
    rw [hshape]
  · have hshape : (b ++ "_" ++ u).data = c0 :: (brest ++ '_' :: u.data) := by
      rw [String.data_append, String.data_append, hbd]
      simp
    rw [hshape]
    show (if c0.isDigit = true then (⟨'_' :: c0 :: (brest ++ '_' :: u.data)⟩ : String)
      else ⟨c0 :: (brest ++ '_' :: u.data)⟩) = _
    rw [if_neg (by
      have := hb2 c0 (by rw [hbd]; rfl)
      simpa using this)]
    apply String.ext
    rw [hshape]

theorem genFuel_fresh_some (uuids : Nat → String) (hu : SaneUuids uuids) :
    ∀ fuel k (visited : Finset String) (s : String),
      (visited.filter (fun t => (sanitizeBase s).length ≤ t.length)).card < fuel →
      genFuel uuids fuel k visited (some s) ∉ visited := by
  intro fuel
  induction fuel with
  | zero => intro k visited s hcard; omega
  | succ n ih =>
    intro k visited s hcard
    show (if sanitizeBase s ∈ visited then _ else sanitizeBase s) ∉ visited
    by_cases hb : sanitizeBase s ∈ visited
    · rw [if_pos hb]
      apply ih
      rw [sanitizeBase_append_id (sanitizeBase s) (uuids k) (sanitizeBase_sane s) (hu k)]
      have hsub : visited.filter
            (fun t => (sanitizeBase s ++ "_" ++ uuids k).length ≤ t.length) ⊆
          (visited.filter (fun t => (sanitizeBase s).length ≤ t.length)).erase
            (sanitizeBase s) := by
        intro t ht
        rw [Finset.mem_filter] at ht
        rw [Finset.mem_erase, Finset.mem_filter]
        have hlen : (sanitizeBase s).length < (sanitizeBase s ++ "_" ++ uuids k).length := by
          rw [String.length_append, String.length_append]
          have : ("_" : String).length = 1 := rfl
          omega
        refine ⟨?_, ht.1, by omega⟩
        intro heq
        rw [heq] at ht
        omega
      have hmem : sanitizeBase s ∈
          visited.filter (fun t => (sanitizeBase s).length ≤ t.length) := by
        rw [Finset.mem_filter]
        exact ⟨hb, le_refl _⟩
      have h1 := Finset.card_le_card hsub
      rw [Finset.card_erase_of_mem hmem] at h1
      have h2 : 1 ≤ (visited.filter (fun t => (sanitizeBase s).length ≤ t.length)).card :=
        Finset.card_pos.2 ⟨_, hmem⟩
      omega
    · rw [if_neg hb]
      exact hb

/-- Claim C7 helper: `generate_new_lean_name` never returns a taken
identifier (for a hex uuid supply). -/
theorem generate_new_lean_name_not_mem (uuids : Nat → String) (hu : SaneUuids uuids)
    (visited : Finset String) (base : Option String) :
    generate_new_lean_name uuids visited base ∉ visited := by
  unfold generate_new_lean_name
  cases base with
  | some s =>
    apply genFuel_fresh_some uuids hu
    have := Finset.card_filter_le visited (fun t => (sanitizeBase s).length ≤ t.length)
    omega
  | none =>
    show (if ("node_" ++ uuids 0) ∈ visited then _ else ("node_" ++ uuids 0)) ∉ visited
    by_cases hb : ("node_" ++ uuids 0) ∈ visited
    · rw [if_pos hb]
      apply genFuel_fresh_some uuids hu
      rw [sanitizeBase_append_id _ (uuids 1) (saneStr_node uuids hu 0) (hu 1)]
      have hsub : visited.filter
            (fun t => ("node_" ++ uuids 0 ++ "_" ++ uuids 1).length ≤ t.length) ⊆
          visited.erase ("node_" ++ uuids 0) := by
        intro t ht
        rw [Finset.mem_filter] at ht
        rw [Finset.mem_erase]
        have hlen : ("node_" ++ uuids 0).length <
            ("node_" ++ uuids 0 ++ "_" ++ uuids 1).length := by
          simp only [String.length_append]
          have : ("_" : String).length = 1 := rfl
          omega
        refine ⟨?_, ht.1⟩
        intro heq
        rw [heq] at ht
        omega
      have h1 := Finset.card_le_card hsub
      rw [Finset.card_erase_of_mem hb] at h1
      have h2 : 1 ≤ visited.card := Finset.card_pos.2 ⟨_, hb⟩
      omega
    · rw [if_neg hb]
      exact hb

/-- Claim C9 (counterexample): for the label `"thm:main"`, the synthesized
identifier is `"main"` — the sanitization drops everything up to the last
colon, while the claim predicts `"thm:main"` (no characters removed). -/
theorem generate_new_lean_name_colon_dropped :
    generate_new_lean_name (fun _ => "u") ∅ (some "thm:main") = "main" ∧
    specSanitize "thm:main" = "thm:main" ∧ ("main" : String) ≠ "thm:main" := by
  refine ⟨by decide, by decide, by decide⟩

/-- Claim C9 (amended): absent collisions, the identifier synthesized from a
label is the part of the label after the last colon, with hyphens and spaces
replaced by underscores and an underscore prepended if the result starts
with a digit; no other characters of that part are altered or removed. -/
theorem generate_new_lean_name_of_label (uuids : Nat → String)
    (visited : Finset String) (label : String)
    (hfresh : specSanitize ⟨afterLastColon label.data⟩ ∉ visited) :
    generate_new_lean_name uuids visited (some label) =
      specSanitize ⟨afterLastColon label.data⟩ := by
  have hspec : sanitizeBase label = specSanitize ⟨afterLastColon label.data⟩ := rfl
  show (if sanitizeBase label ∈ visited then _ else sanitizeBase label) = _
  rw [hspec, if_neg hfresh]

/-- Witness for `generate_new_lean_name_of_label` on label `"foo-bar 1z"`. -/
theorem generate_new_lean_name_of_label_witness :
    generate_new_lean_name (fun _ => "u") ∅ (some "foo-bar 1z") =
      specSanitize ⟨afterLastColon "foo-bar 1z".data⟩ :=
  generate_new_lean_name_of_label (fun _ => "u") ∅ "foo-bar 1z" (by decide)

/-! ## Source splicing (`modify_lean.insert_docstring_and_attribute`)

The leading-modifier regex `^(?:[a-zA-Z_]+.*?in\n)+` matches a maximal run
of newline-terminated lines whose content starts with `[a-zA-Z_]` and ends
in `"in"` with at least one character before it (`.` does not match `\n`,
so each repetition consumes exactly one line up to and including its
newline).  The docstring regex (optional whitespace, the doc-comment opener,
a lazy DOTALL body up to the earliest doc-comment closer, trailing
whitespace) and the attribute-block regex (optional whitespace, an
at-bracket opener, a lazy DOTALL body up to the earliest closing bracket,
trailing whitespace) take the earliest closing delimiter. -/

/-- Whether a line's content (without its newline) is matched by one
repetition of `[a-zA-Z_]+.*?in\n`. -/
def isModifierLine (content : List Char) : Bool :=
  match content with
  | c :: _ =>
    (c.isAlpha || c = '_') &&
      (match content.reverse with
       | 'n' :: 'i' :: _ :: _ => true
       | _ => false)
  | [] => false

/-- The leading modifier run: consume newline-terminated modifier lines. -/
def takeModifiersFuel : Nat → List Char → List Char × List Char
  | 0, cs => ([], cs)
  | fuel + 1, cs =>
    let content := cs.takeWhile (· != '\n')
    match cs.dropWhile (· != '\n') with
    | '\n' :: rest2 =>
      if isModifierLine content then
        let p := takeModifiersFuel fuel rest2
        (content ++ '\n' :: p.1, p.2)
      else ([], cs)
    | _ => ([], cs)

def takeModifiers (cs : List Char) : List Char × List Char :=
  takeModifiersFuel cs.length cs

/-- Scan for the earliest doc-comment closer (dash slash); returns the
content before it and the remainder after it. -/
def findCommentClose : List Char → Option (List Char × List Char)
  | [] => none
  | '-' :: '/' :: rest => some ([], rest)
  | c :: rest => (findCommentClose rest).map (fun p => (c :: p.1, p.2))

/-- The docstring regex of `insert_docstring_and_attribute` (leading
whitespace, doc-comment opener, lazy body, doc-comment closer, trailing
whitespace): returns (group 1, remainder). -/
def matchDocstring (cs : List Char) : Option (List Char × List Char) :=
  match cs.dropWhile pyIsSpace with
  | '/' :: '-' :: '-' :: rest =>
    (findCommentClose rest).map (fun p => (p.1, p.2.dropWhile pyIsSpace))
  | _ => none

/-- The attribute-block regex of `insert_docstring_and_attribute` (leading
whitespace, at-bracket opener, lazy body, closing bracket, trailing
whitespace): returns (group 1, remainder). -/
def matchAttrBlock (cs : List Char) : Option (List Char × List Char) :=
  match cs.dropWhile pyIsSpace with
  | '@' :: '[' :: rest =>
    (match rest.dropWhile (· != ']') with
     | ']' :: rest2 => some (rest.takeWhile (· != ']'), rest2.dropWhile pyIsSpace)
     | _ => none)
  | _ => none

/-- The remainder after an optional leading docstring block. -/
def afterDocstring (d1 : List Char) : List Char :=
  match matchDocstring d1 with
  | some p => p.2
  | none => d1

/-- The docstring produced by `insert_docstring_and_attribute`: the new
docstring, with any existing docstring content kept beneath it after a blank
line. -/
def docstringOf (new_docstring : String) (d1 : List Char) : String :=
  match matchDocstring d1 with
  | some p => new_docstring ++ "\n\n" ++ pyStrip ⟨p.1⟩
  | none => new_docstring

/-- The remainder after an optional leading attribute block. -/
def afterAttrBlock (d2 : List Char) : List Char :=
  match matchAttrBlock d2 with
  | some p => p.2
  | none => d2

/-- The attribute list produced by `insert_docstring_and_attribute`: the new
attribute appended to any existing attribute block content. -/
def attrsOf (new_attr : String) (d2 : List Char) : String :=
  match matchAttrBlock d2 with
  | some p => (⟨p.1⟩ : String) ++ ", " ++ new_attr
  | none => new_attr

/-- The `to_additive` test performed by `insert_docstring_and_attribute`
after stripping modifiers, docstring and attribute block. -/
def toAdditiveCase (decl : String) : Bool :=
  "to_additive".data.isPrefixOf (afterAttrBlock (afterDocstring (takeModifiers decl.data).2))

/-- `modify_lean.insert_docstring_and_attribute`. -/
def insert_docstring_and_attribute (decl new_docstring new_attr : String) : String :=
  let md := takeModifiers decl.data
  let docstring := docstringOf new_docstring md.2
  let d2 := afterDocstring md.2
  let attrs := attrsOf new_attr d2
  let d3 := afterAttrBlock d2
  if "to_additive".data.isPrefixOf d3 then
    let d4 := pyStripList (d3.drop 11)
    let d5 := if d4.isEmpty then d4 else d4 ++ [' ']
    "to_additive (attr := " ++ attrs ++ ") " ++ ⟨d5⟩ ++ make_docstring docstring 0
  else
    (⟨md.1⟩ : String) ++ make_docstring docstring 0 ++ "\n@[" ++ attrs ++ "]\n" ++ ⟨d3⟩

/-- A well-formed run of modifier lines (each newline-terminated, each
matched by one repetition of the modifier regex). -/
inductive ModRun : List Char → Prop where
  | nil : ModRun []
  | cons (content rest : List Char) : '\n' ∉ content → isModifierLine content = true →
      ModRun rest → ModRun (content ++ '\n' :: rest)

theorem takeModifiersFuel_run (R : List Char) (hR : ModRun R) :
    ∀ (tail : List Char) (fuel : Nat), (R ++ tail).length ≤ fuel →
      ∃ m t, takeModifiersFuel fuel (R ++ tail) = (R ++ m, t) := by
  induction hR with
  | nil =>
    intro tail fuel _
    exact ⟨(takeModifiersFuel fuel tail).1, (takeModifiersFuel fuel tail).2, by simp⟩
  | cons content rest hnl hmod _ ih =>
    intro tail fuel hfuel
    have hlen : (content ++ '\n' :: (rest ++ tail)).length ≤ fuel := by
      simpa using hfuel
    rcases fuel with _ | f
    · simp at hlen
    have hcont : ∀ c ∈ content, (c != '\n') = true := by
      intro c hc
      simp only [bne_iff_ne, ne_eq]
      rintro rfl
      exact hnl hc
    have htw : ((content ++ '\n' :: rest) ++ tail).takeWhile (· != '\n') = content := by
      rw [List.append_assoc, List.cons_append, takeWhile_append_of_all _ hcont]
      simp [List.takeWhile_cons]
    have hdw : ((content ++ '\n' :: rest) ++ tail).dropWhile (· != '\n') =
        '\n' :: (rest ++ tail) := by
      rw [List.append_assoc, List.cons_append, dropWhile_append_of_all _ hcont]
      simp [List.dropWhile_cons]
    obtain ⟨m, t, hmt⟩ := ih tail f (by
      simp only [List.length_append, List.length_cons] at hlen ⊢
      omega)
    refine ⟨m, t, ?_⟩
    rw [takeModifiersFuel, htw, hdw]
    simp [hmod, hmt]

theorem takeModifiers_run (R tail : List Char) (hR : ModRun R) :
    ∃ m t, takeModifiers (R ++ tail) = (R ++ m, t) :=
  takeModifiersFuel_run R hR tail (R ++ tail).length (le_refl _)

theorem insert_docstring_eq_of_not_to_additive (decl new_docstring new_attr : String)
    (hta : toAdditiveCase decl = false) :
    insert_docstring_and_attribute decl new_docstring new_attr =
      (⟨(takeModifiers decl.data).1⟩ : String) ++
        (make_docstring (docstringOf new_docstring (takeModifiers decl.data).2) 0 ++ "\n@[" ++
          attrsOf new_attr (afterDocstring (takeModifiers decl.data).2) ++ "]\n" ++
          ⟨afterAttrBlock (afterDocstring (takeModifiers decl.data).2)⟩) := by
  have h : ("to_additive".data.isPrefixOf
      (afterAttrBlock (afterDocstring (takeModifiers decl.data).2))) = false := hta
  rw [insert_docstring_and_attribute]
  rw [if_neg (by rw [h]; exact Bool.false_ne_true)]
  apply String.ext
  simp [String.data_append, List.append_assoc]

/-- Claim C8 (amended): when the declaration (after stripping modifiers,
docstring and attribute block) does not start with `to_additive`, the output
of `insert_docstring_and_attribute` begins with the declaration's leading
modifier run unchanged; in the `to_additive` case the modifier run is
dropped (see the counterexample). -/
theorem insert_docstring_preserves_modifiers (decl new_docstring new_attr : String)
    (R rest : List Char) (hdecl : decl.data = R ++ rest) (hR : ModRun R)
    (hta : toAdditiveCase decl = false) :
    ∃ t : String, insert_docstring_and_attribute decl new_docstring new_attr =
      (⟨R⟩ : String) ++ t := by
  obtain ⟨m, t, hmt⟩ := takeModifiers_run R rest hR
  rw [← hdecl] at hmt
  refine ⟨⟨m⟩ ++ (make_docstring (docstringOf new_docstring (takeModifiers decl.data).2) 0 ++
    "\n@[" ++ attrsOf new_attr (afterDocstring (takeModifiers decl.data).2) ++ "]\n" ++
    ⟨afterAttrBlock (afterDocstring (takeModifiers decl.data).2)⟩), ?_⟩
  rw [insert_docstring_eq_of_not_to_additive decl new_docstring new_attr hta]
  apply String.ext
  simp [String.data_append, hmt, List.append_assoc]

/-- Claim C8 (counterexample): a declaration beginning with the modifier run
`"open Foo in\n"` whose post-modifier text begins with `to_additive` loses
the modifier run: the output starts with `to_additive (attr :=` instead. -/
theorem insert_docstring_drops_modifiers_on_to_additive :
    (takeModifiers "open Foo in\nto_additive theorem bar".data).1 = "open Foo in\n".data ∧
    (insert_docstring_and_attribute "open Foo in\nto_additive theorem bar"
        "Doc" "blueprint").data.take 12 ≠ "open Foo in\n".data := by
  constructor <;> decide

/-- Witness for `insert_docstring_preserves_modifiers` on a declaration with
one `open ... in` modifier line. -/
theorem insert_docstring_preserves_modifiers_witness :
    ∃ t : String, insert_docstring_and_attribute "open Foo in\ntheorem bar : True"
        "Doc" "blueprint" = (⟨"open Foo in\n".data⟩ : String) ++ t :=
  insert_docstring_preserves_modifiers "open Foo in\ntheorem bar : True" "Doc" "blueprint"
    "open Foo in\n".data "theorem bar : True".data (by decide)
    (by
      have h1 : ModRun [] := ModRun.nil
      have h2 := ModRun.cons "open Foo in".data [] (by decide) (by decide) h1
      simpa using h2)
    (by decide)

/-! ## Node scanning (`parse_latex.parse_nodes`)

The regex sweep `ENV_PATTERN.finditer(source)` together with
`process_source` (custom-command extraction) is abstracted as the input: a
list of matches, each carrying its environment, optional bracketed title,
extracted `SourceInfo`, cleaned body text and verbatim source
(`match.group(0)`).  The two passes and the resolver loop are embedded
directly.  The statement-like environment names (`depgraph_thm_types`) are a
parameter, and `uuid.uuid4().hex` draws are an oracle indexed per match. -/

/-- `parse_latex.SourceInfo` (the field for the explicit `\lean{...}` value
is called `leanName` here). -/
structure SourceInfo where
  label : Option String
  uses : List String
  alsoIn : List String
  proves : Option String
  leanok : Bool
  notready : Bool
  mathlibok : Bool
  leanName : Option String
  discussion : Option Int
deriving DecidableEq

/-- One match of `ENV_PATTERN`, with `process_source` already applied. -/
structure LMatch where
  env : String
  title : Option String
  info : SourceInfo
  node_source : String
  raw : String
deriving DecidableEq

/-- The mutable state of the first pass of `parse_nodes`: `nodes` in
insertion order, `matchNode` aligned with the match list
(`match_idx_to_node`, `none` for non-statement matches), `label_to_node`
with the most recent binding first, and `name_to_raw_sources` in key
insertion order. -/
structure Pass1State where
  nodes : List Node
  matchNode : List (Option String)
  labelMap : List (String × Node)
  rawSources : List (String × List String)
deriving DecidableEq

def findNodeByName (nodes : List Node) (name : String) : Option Node :=
  nodes.find? (fun n => n.name == name)

/-- `name_to_raw_sources.setdefault(name, []).append(raw)`. -/
def addRawSource (rs : List (String × List String)) (name : String) (raw : String) :
    List (String × List String) :=
  if rs.any (fun p => p.1 == name) then
    rs.map (fun p => if p.1 == name then (p.1, p.2 ++ [raw]) else p)
  else rs ++ [(name, [raw])]

/-- The identifier chosen for a statement match:
`source_info.lean or generate_new_lean_name(...)` (Python `or`: an absent or
empty explicit name falls back to synthesis). -/
def chooseName (uuids1 : Nat → String) (visited : Finset String) (info : SourceInfo) : String :=
  match info.leanName with
  | some s => if s.isEmpty then generate_new_lean_name uuids1 visited info.label else s
  | none => generate_new_lean_name uuids1 visited info.label

/-- One iteration of the statement pass of `parse_nodes`. -/
def pass1Step (thm_types : List String) (uuids1 : Nat → String)
    (st : Pass1State) (m : LMatch) : Pass1State :=
  if m.env ∈ thm_types then
    let name := chooseName uuids1 (st.nodes.map Node.name).toFinset m.info
    let rawSources := addRawSource st.rawSources name m.raw
    match findNodeByName st.nodes name with
    | some node0 =>
      { nodes := st.nodes
        matchNode := st.matchNode ++ [some name]
        labelMap :=
          match m.info.label with
          | some l => (l, node0) :: st.labelMap
          | none => st.labelMap
        rawSources := rawSources }
    | none =>
      let statement : NodePart :=
        { lean_ok := m.info.leanok, text := m.node_source, uses := ∅,
          uses_raw := m.info.uses.toFinset, latex_env := m.env }
      let node : Node :=
        { name := name, statement := statement, proof := none,
          not_ready := m.info.notready, discussion := m.info.discussion, title := m.title }
      { nodes := st.nodes ++ [node]
        matchNode := st.matchNode ++ [some name]
        labelMap :=
          match m.info.label with
          | some l => (l, node) :: st.labelMap
          | none => st.labelMap
        rawSources := rawSources }
  else
    { st with matchNode := st.matchNode ++ [none] }

def pass1 (thm_types : List String) (uuids : Nat → Nat → String) :
    Nat → List LMatch → Pass1State → Pass1State
  | _, [], st => st
  | i, m :: rest, st =>
    pass1 thm_types uuids (i + 1) rest (pass1Step thm_types (uuids i) st m)

/-- The `NodePart` built for a proof match. -/
def proofPartOf (m : LMatch) : NodePart :=
  { lean_ok := m.info.leanok, text := m.node_source, uses := ∅,
    uses_raw := m.info.uses.toFinset, latex_env := m.env }

/-- Attach a proof part to the node named `name` (Python mutates the node
object; names are unique after pass 1). -/
def setProof (nodes : List Node) (name : String) (p : NodePart) : List Node :=
  nodes.map (fun n => if n.name == name then { n with proof := some p } else n)

/-- The proof pass of `parse_nodes`: an explicit `\proves{label}` looks the
label up in `label_to_node`, raising `KeyError` (modelled as
`Except.error`) when absent; otherwise the proof attaches to the node of
the immediately preceding match when that match produced one, and is
dropped with a warning when it did not. -/
def pass2 (labelMap : List (String × Node)) (matchNode : List (Option String)) :
    Nat → List LMatch → List Node × List (String × List String) →
      Except String (List Node × List (String × List String))
  | _, [], st => .ok st
  | i, m :: rest, st =>
    if m.env = "proof" then
      match m.info.proves with
      | some l =>
        match lookupLabel labelMap l with
        | some node =>
          pass2 labelMap matchNode (i + 1) rest
            (setProof st.1 node.name (proofPartOf m), addRawSource st.2 node.name m.raw)
        | none => .error ("KeyError: " ++ l)
      | none =>
        match i with
        | 0 => pass2 labelMap matchNode 1 rest st
        | j + 1 =>
          match matchNode.getD j none with
          | some nm =>
            pass2 labelMap matchNode (j + 2) rest
              (setProof st.1 nm (proofPartOf m), addRawSource st.2 nm m.raw)
          | none => pass2 labelMap matchNode (j + 2) rest st
    else
      pass2 labelMap matchNode (i + 1) rest st

/-- Whether a raw label resolves: present in `label_to_node` with a
formalization-confirmed statement. -/
def resolvableLabel (m : List (String × Node)) (l : String) : Bool :=
  match lookupLabel m l with
  | some n => n.statement.lean_ok
  | none => false

/-- The canonical identifier a resolvable label is converted to. -/
def targetNameOf (m : List (String × Node)) (l : String) : String :=
  match lookupLabel m l with
  | some n => n.name
  | none => ""

/-- `parse_latex.convert_latex_label_to_lean_name` on one `NodePart`. -/
def convert_latex_label_to_lean_name (labelMap : List (String × Node))
    (p : NodePart) : NodePart :=
  { p with
    uses := p.uses ∪
      (p.uses_raw.filter (fun l => resolvableLabel labelMap l = true)).image
        (fun l => targetNameOf labelMap l)
    uses_raw := p.uses_raw.filter (fun l => resolvableLabel labelMap l = false)
    text := convert_ref_to_texttt labelMap p.text }

def resolveNode (labelMap : List (String × Node)) (n : Node) : Node :=
  { n with
    statement := convert_latex_label_to_lean_name labelMap n.statement
    proof := n.proof.map (convert_latex_label_to_lean_name labelMap) }

/-- `parse_latex.parse_nodes`. -/
def parse_nodes (thm_types : List String) (uuids : Nat → Nat → String)
    (ms : List LMatch) :
    Except String (List Node × List (String × List String)) :=
  let st1 := pass1 thm_types uuids 0 ms ⟨[], [], [], []⟩
  match pass2 st1.labelMap st1.matchNode 0 ms (st1.nodes, st1.rawSources) with
  | .error e => .error e
  | .ok p => .ok (p.1.map (resolveNode st1.labelMap), p.2)

theorem setProof_map_name (nodes : List Node) (nm : String) (p : NodePart) :
    (setProof nodes nm p).map Node.name = nodes.map Node.name := by
  unfold setProof
  rw [List.map_map]
  apply List.map_congr_left
  intro n _
  simp only [Function.comp]
  split <;> rfl

theorem pass2_names (labelMap : List (String × Node)) (matchNode : List (Option String)) :
    ∀ (ms : List LMatch) (i : Nat) (st : List Node × List (String × List String)) res,
      pass2 labelMap matchNode i ms st = .ok res →
      res.1.map Node.name = st.1.map Node.name := by
  intro ms
  induction ms with
  | nil =>
    intro i st res h
    simp only [pass2] at h
    cases h
    rfl
  | cons m rest ih =>
    intro i st res h
    simp only [pass2] at h
    split at h
    · split at h
      · split at h
        · rw [ih _ _ _ h, setProof_map_name]
        · cases h
      · split at h
        · exact ih _ _ _ h
        · split at h
          · rw [ih _ _ _ h, setProof_map_name]
          · exact ih _ _ _ h
    · exact ih _ _ _ h

theorem pass1Step_nodup (thm_types : List String) (u : Nat → String) (st : Pass1State)
    (m : LMatch) (h : (st.nodes.map Node.name).Nodup) :
    ((pass1Step thm_types u st m).nodes.map Node.name).Nodup := by
  unfold pass1Step
  split
  · rcases hfind : findNodeByName st.nodes
        (chooseName u (st.nodes.map Node.name).toFinset m.info) with _ | node0
    · simp only [hfind]
      simp only [List.map_append, List.map_cons, List.map_nil]
      refine List.Nodup.append h (List.nodup_singleton _) ?_
      intro a ha hb
      simp only [List.mem_singleton] at hb
      subst hb
      obtain ⟨n, hn, hname⟩ := List.mem_map.1 ha
      have := List.find?_eq_none.1 hfind n hn
      simp only [beq_iff_eq] at this
      exact this hname
    · simp only [hfind]
      simpa using h
  · simpa using h

theorem pass1_nodup (thm_types : List String) (uuids : Nat → Nat → String) :
    ∀ (ms : List LMatch) (i : Nat) (st : Pass1State),
      (st.nodes.map Node.name).Nodup →
      ((pass1 thm_types uuids i ms st).nodes.map Node.name).Nodup := by
  intro ms
  induction ms with
  | nil => intro i st h; exact h
  | cons m rest ih =>
    intro i st h
    exact ih _ _ (pass1Step_nodup _ _ _ _ h)

theorem resolve_map_name (lm : List (String × Node)) (ns : List Node) :
    (ns.map (resolveNode lm)).map Node.name = ns.map Node.name := by
  rw [List.map_map]
  apply List.map_congr_left
  intro n _
  rfl

/-- The error of a failed scan, if any. -/
def errOf {α : Type} (r : Except String α) : Option String :=
  match r with
  | .error e => some e
  | .ok _ => none

/-- The node names of a successful scan (empty on a failed scan). -/
def okNames (r : Except String (List Node × List (String × List String))) : List String :=
  match r with
  | .ok p => p.1.map Node.name
  | .error _ => []

def mkInfo (label : Option String) (uses : List String) (proves : Option String)
    (leanok : Bool) (leanName : Option String) : SourceInfo :=
  { label := label, uses := uses, alsoIn := [], proves := proves, leanok := leanok,
    notready := false, mathlibok := false, leanName := leanName, discussion := none }

def mkThm (label leanName : Option String) : LMatch :=
  { env := "theorem", title := none, info := mkInfo label [] none true leanName,
    node_source := "", raw := "" }

def mkProof (proves : Option String) (src : String) : LMatch :=
  { env := "proof", title := none, info := mkInfo none [] proves false none,
    node_source := src, raw := "" }

/-- Two matches declaring the same explicit identifier `A`, the second with
a different `leanok` flag; only the first may produce a Node. -/
def dupFixture : List LMatch :=
  [mkThm none (some "A"),
   { env := "theorem", title := none, info := mkInfo none [] none false (some "A"),
     node_source := "", raw := "" }]

/-- Claim C7: no two distinct Nodes returned by the scanner share an
identifier; a second match resolving to an existing identifier does not
produce a Node (the first wins, as the fixture shows); and every synthesized
identifier is fresh against the set of identifiers already taken. -/
theorem parse_nodes_identifier_uniqueness :
    (∀ (thm_types : List String) (uuids : Nat → Nat → String) (ms : List LMatch),
      (okNames (parse_nodes thm_types uuids ms)).Nodup) ∧
    (∀ (uuids1 : Nat → String) (visited : Finset String) (base : Option String),
      SaneUuids uuids1 → generate_new_lean_name uuids1 visited base ∉ visited) ∧
    ((parse_nodes ["theorem"] (fun _ _ => "u") dupFixture).toOption.map
        (fun p => p.1.map (fun n => (n.name, n.statement.lean_ok))) =
      some [("A", true)]) := by
  refine ⟨?_, ?_, by decide⟩
  · intro thm_types uuids ms
    unfold parse_nodes okNames
    rcases hp : pass2 (pass1 thm_types uuids 0 ms ⟨[], [], [], []⟩).labelMap
        (pass1 thm_types uuids 0 ms ⟨[], [], [], []⟩).matchNode 0 ms
        ((pass1 thm_types uuids 0 ms ⟨[], [], [], []⟩).nodes,
         (pass1 thm_types uuids 0 ms ⟨[], [], [], []⟩).rawSources) with e | p
    · simp [hp]
    · simp only [hp]
      rw [resolve_map_name, pass2_names _ _ _ _ _ _ hp]
      exact pass1_nodup thm_types uuids ms 0 ⟨[], [], [], []⟩ (by simp)
  · intro uuids1 visited base hu
    exact generate_new_lean_name_not_mem uuids1 hu visited base

/-- Witness for `parse_nodes_identifier_uniqueness`. -/
theorem parse_nodes_identifier_uniqueness_witness :
    (okNames (parse_nodes ["theorem"] (fun _ _ => "u") dupFixture)).Nodup ∧
    generate_new_lean_name (fun _ => "0") ({"a"} : Finset String) (some "a") ∉
      ({"a"} : Finset String) :=
  ⟨parse_nodes_identifier_uniqueness.1 ["theorem"] (fun _ _ => "u") dupFixture,
   parse_nodes_identifier_uniqueness.2.1 (fun _ => "0") {"a"} (some "a")
     (by
       intro k
       exact (by decide : ∀ c ∈ ("0" : String).data, c ≠ ':' ∧ c ≠ '-' ∧ c ≠ ' '))⟩

theorem lookupLabel_mem (m : List (String × Node)) (l : String) (n : Node)
    (h : lookupLabel m l = some n) : ∃ p ∈ m, p.2 = n := by
  unfold lookupLabel at h
  rcases Option.map_eq_some'.1 h with ⟨p, hfind, hp2⟩
  exact ⟨p, List.mem_of_find?_eq_some hfind, hp2⟩

/-- Claim C1 (amended): after the Reference Resolver runs on a node part of
a scanned graph (where `uses` starts empty and every label-map target is a
graph node): every resolvable raw label (present in the label map with a
formalization-confirmed statement) is moved from `uses_raw` to `uses` under
the target's canonical identifier, every other raw label remains in
`uses_raw`, every element of `uses` names an existing node — and `uses` and
`uses_raw` can overlap only in strings that are simultaneously an unresolved
raw label and the canonical name of a resolved target (they are disjoint
whenever no unresolved label coincides with such a name). -/
theorem convert_latex_label_spec (labelMap : List (String × Node)) (nodes : List Node)
    (hmap : ∀ p ∈ labelMap, ∃ n ∈ nodes, n.name = p.2.name)
    (part : NodePart) (hinit : part.uses = ∅) :
    (∀ l ∈ part.uses_raw, resolvableLabel labelMap l = true →
      targetNameOf labelMap l ∈ (convert_latex_label_to_lean_name labelMap part).uses ∧
        l ∉ (convert_latex_label_to_lean_name labelMap part).uses_raw) ∧
    (∀ l ∈ part.uses_raw, resolvableLabel labelMap l = false →
      l ∈ (convert_latex_label_to_lean_name labelMap part).uses_raw) ∧
    (convert_latex_label_to_lean_name labelMap part).uses_raw ⊆ part.uses_raw ∧
    (∀ u ∈ (convert_latex_label_to_lean_name labelMap part).uses,
      ∃ n ∈ nodes, n.name = u) ∧
    (∀ u ∈ (convert_latex_label_to_lean_name labelMap part).uses,
      u ∈ (convert_latex_label_to_lean_name labelMap part).uses_raw →
      ∃ l ∈ part.uses_raw, resolvableLabel labelMap l = true ∧
        targetNameOf labelMap l = u) := by
  have huses : (convert_latex_label_to_lean_name labelMap part).uses =
      (part.uses_raw.filter (fun l => resolvableLabel labelMap l = true)).image
        (fun l => targetNameOf labelMap l) := by
    show part.uses ∪ _ = _
    rw [hinit, Finset.empty_union]
  have hraw : (convert_latex_label_to_lean_name labelMap part).uses_raw =
      part.uses_raw.filter (fun l => resolvableLabel labelMap l = false) := rfl
  refine ⟨?_, ?_, ?_, ?_, ?_⟩
  · intro l hl hres
    constructor
    · rw [huses]
      exact Finset.mem_image_of_mem _ (Finset.mem_filter.2 ⟨hl, hres⟩)
    · rw [hraw]
      intro hmem
      have := (Finset.mem_filter.1 hmem).2
      rw [hres] at this
      cases this
  · intro l hl hres
    rw [hraw]
    exact Finset.mem_filter.2 ⟨hl, hres⟩
  · rw [hraw]
    exact Finset.filter_subset _ _
  · intro u hu
    rw [huses] at hu
    obtain ⟨l, hlf, rfl⟩ := Finset.mem_image.1 hu
    have hres := (Finset.mem_filter.1 hlf).2
    unfold resolvableLabel at hres
    rcases hlk : lookupLabel labelMap l with _ | n
    · rw [hlk] at hres
      cases hres
    · obtain ⟨p, hpm, hp2⟩ := lookupLabel_mem labelMap l n hlk
      obtain ⟨nd, hnd, hname⟩ := hmap p hpm
      refine ⟨nd, hnd, ?_⟩
      unfold targetNameOf
      rw [hlk, hname, hp2]
  · intro u hu _
    rw [huses] at hu
    obtain ⟨l, hlf, rfl⟩ := Finset.mem_image.1 hu
    obtain ⟨hl, hres⟩ := Finset.mem_filter.1 hlf
    exact ⟨l, hl, hres, rfl⟩

/-- A node part as produced by the scanner: empty `uses`, raw labels
`{"a", "x"}`. -/
def demoPart : NodePart :=
  { lean_ok := false, text := "", uses := ∅, uses_raw := {"a", "x"},
    latex_env := "theorem" }

/-- Witness for `convert_latex_label_spec` on the map `a ↦ demoNode`. -/
theorem convert_latex_label_spec_witness :
    targetNameOf [("a", demoNode)] "a" ∈
      (convert_latex_label_to_lean_name [("a", demoNode)] demoPart).uses ∧
    "a" ∉ (convert_latex_label_to_lean_name [("a", demoNode)] demoPart).uses_raw :=
  (convert_latex_label_spec [("a", demoNode)] [demoNode] (by decide) demoPart
    (by decide)).1 "a" (by decide) (by decide)

/-- A scanned document in which the resolver leaves `uses` and `uses_raw`
overlapping: node `b` carries label `a` and is confirmed; node `c` declares
`\uses{a,b}`, so `a` resolves to the name `b` while the raw label `b` stays
unresolved. -/
def overlapFixture : List LMatch :=
  [{ env := "theorem", title := none, info := mkInfo (some "a") [] none true (some "b"),
     node_source := "", raw := "" },
   { env := "theorem", title := none, info := mkInfo none ["a", "b"] none false (some "c"),
     node_source := "", raw := "" }]

/-- Claim C1 (counterexample): on `overlapFixture` the scanner's second node
ends with `uses = {"b"}` and `uses_raw = {"b"}`, which are not disjoint. -/
theorem parse_nodes_uses_overlap :
    ((parse_nodes ["theorem"] (fun _ _ => "u") overlapFixture).toOption.map
      (fun p => p.1.map (fun n => (n.name, n.statement.uses, n.statement.uses_raw)))) =
      some [("b", ∅, ∅), ("c", {"b"}, {"b"})] ∧
    ¬ Disjoint ({"b"} : Finset String) ({"b"} : Finset String) := by
  constructor <;> decide

/-- Proofs in every binding situation: a leading proof with no predecessor
(dropped), an explicit `\proves{a}` attaching to `A` although the preceding
match is `B`, a proof preceded by another proof (dropped), and a proof
attaching to the immediately preceding statement `C`. -/
def bindFixture : List LMatch :=
  [mkProof none "p0",
   mkThm (some "a") (some "A"),
   mkThm none (some "B"),
   mkProof (some "a") "p3",
   mkProof none "p4",
   mkThm none (some "C"),
   mkProof none "p6"]

/-- A proof with an explicit `\proves` label that is not in the label map. -/
def unknownProvesFixture : List LMatch :=
  [mkThm none (some "A"), mkProof (some "zzz") "p1"]

/-- Claim C2 (amended): an explicit `\proves{label}` whose label is in the
label map attaches the proof to that node regardless of position; an
explicit `\proves{label}` with an unknown label makes the scan fail with a
`KeyError` (it is not dropped); a positional proof attaches to the
immediately preceding match when that match produced a statement node and is
otherwise dropped with a warning, scanning continuing. -/
theorem parse_nodes_proof_binding :
    (∀ (labelMap : List (String × Node)) (mn : List (Option String)) (i : Nat)
       (m : LMatch) (rest : List LMatch)
       (st : List Node × List (String × List String)) (l : String),
       m.env = "proof" → m.info.proves = some l → lookupLabel labelMap l = none →
       pass2 labelMap mn i (m :: rest) st = .error ("KeyError: " ++ l)) ∧
    ((parse_nodes ["theorem"] (fun _ _ => "u") bindFixture).toOption.map
      (fun p => p.1.map (fun n => (n.name, n.proof.map (fun q => q.text))))) =
      some [("A", some "p3"), ("B", none), ("C", some "p6")] ∧
    errOf (parse_nodes ["theorem"] (fun _ _ => "u") unknownProvesFixture) =
      some ("KeyError: " ++ "zzz") := by
  refine ⟨?_, by decide, by decide⟩
  intro labelMap mn i m rest st l henv hpv hlk
  simp [pass2, henv, hpv, hlk]

/-- Witness for `parse_nodes_proof_binding`. -/
theorem parse_nodes_proof_binding_witness :
    pass2 [] [] 0 [mkProof (some "z") "p"] ([], []) = .error ("KeyError: " ++ "z") :=
  parse_nodes_proof_binding.1 [] [] 0 (mkProof (some "z") "p") [] ([], []) "z"
    rfl rfl rfl

/-- Claim C2 (counterexample): a proof match carrying `\proves{zzz}` with no
node labelled `zzz` makes the scan fail with a `KeyError` instead of being
dropped with a warning. -/
theorem parse_nodes_unknown_proves_fails :
    errOf (parse_nodes ["theorem"] (fun _ _ => "u") unknownProvesFixture) =
      some ("KeyError: " ++ "zzz") ∧
    (parse_nodes ["theorem"] (fun _ _ => "u") unknownProvesFixture).toOption = none := by
  constructor <;> decide

/-! ## Dependency ordering (`modify_lean.topological_sort`)

The recursive `visit` with its mutable `visited`/`result` is embedded with
explicit state and a fuel parameter (`|data| + 1` suffices: each nested call
first adds an unvisited dictionary key to `visited`).  Iteration over the
Python `set` of uses is fixed to sorted order. -/

/-- `name_to_node` built by dict comprehension: the last entry with a given
name wins. -/
def dictLookup (g : List (Node × String)) (name : String) : Option (Node × String) :=
  g.reverse.find? (fun p => p.1.name == name)

/-- `node.statement.uses | node.proof.uses` in a fixed iteration order. -/
def nodeUsesList (n : Node) : List String :=
  (n.statement.uses ∪ (match n.proof with | some p => p.uses | none => ∅)).sort (· ≤ ·)

structure DfsState where
  visited : List String
  result : List (Node × String)
deriving DecidableEq

def resNames (st : DfsState) : List String :=
  st.result.map (fun p => p.1.name)

/-- The recursive `visit` of `topological_sort`.  (Python adds `name` to
`visited` before the dictionary lookup; the lookup cannot fail at any call
site because callers check key membership.) -/
def visit (g : List (Node × String)) : Nat → String → DfsState → DfsState
  | 0, _, st => st
  | fuel + 1, name, st =>
    if name ∈ st.visited then st
    else
      let st1 : DfsState := ⟨name :: st.visited, st.result⟩
      match dictLookup g name with
      | none => st1
      | some p =>
        let st2 := (nodeUsesList p.1).foldl
          (fun s u => if (dictLookup g u).isSome then visit g fuel u s else s) st1
        ⟨st2.visited, st2.result ++ [p]⟩

/-- `modify_lean.topological_sort`. -/
def topological_sort (g : List (Node × String)) : List (Node × String) :=
  (g.foldl (fun st p => visit g (g.length + 1) p.1.name st) ⟨[], []⟩).result

def keysOf (g : List (Node × String)) : List String :=
  g.map (fun p => p.1.name)

/-- A direct dependency edge between identifiers present in the input. -/
def EdgeRel (g : List (Node × String)) (a b : String) : Prop :=
  ∃ pa ∈ g, pa.1.name = a ∧ b ∈ nodeUsesList pa.1 ∧ b ∈ keysOf g

/-- The ordering invariant: every in-input dependency of an emitted entry
appears strictly earlier in the emitted list. -/
def OrderInv (g : List (Node × String)) (res : List (Node × String)) : Prop :=
  ∀ (i : Nat) (p : Node × String), res[i]? = some p →
    ∀ u, u ∈ nodeUsesList p.1 → u ∈ keysOf g →
      ∃ (j : Nat) (q : Node × String), j < i ∧ res[j]? = some q ∧ q.1.name = u

theorem dictLookup_isSome_iff (g : List (Node × String)) (name : String) :
    (dictLookup g name).isSome = true ↔ name ∈ keysOf g := by
  unfold dictLookup keysOf
  rw [List.find?_isSome]
  constructor
  · rintro ⟨p, hp, hname⟩
    simp only [beq_iff_eq] at hname
    exact List.mem_map.2 ⟨p, List.mem_reverse.1 hp, hname⟩
  · intro h
    obtain ⟨p, hp, hname⟩ := List.mem_map.1 h
    exact ⟨p, List.mem_reverse.2 hp, by simp [hname]⟩

theorem dictLookup_eq_some (g : List (Node × String)) (name : String)
    (p : Node × String) (h : dictLookup g name = some p) :
    p ∈ g ∧ p.1.name = name := by
  unfold dictLookup at h
  have h1 := List.mem_of_find?_eq_some h
  have h2 := List.find?_some h
  simp only [beq_iff_eq] at h2
  exact ⟨List.mem_reverse.1 h1, h2⟩

theorem card_sdiff_le_of_subset (K : Finset String) (v v2 : List String)
    (h : v ⊆ v2) : (K \ v2.toFinset).card ≤ (K \ v.toFinset).card := by
  apply Finset.card_le_card
  apply Finset.sdiff_subset_sdiff (le_refl K)
  intro x hx
  rw [List.mem_toFinset] at hx ⊢
  exact h hx

/-- The inner loop of `visit` over the uses of a node. -/
def visitFold (g : List (Node × String)) (f : Nat) (us : List String)
    (st : DfsState) : DfsState :=
  us.foldl (fun s u => if (dictLookup g u).isSome then visit g f u s else s) st

theorem visit_succ_eq (g : List (Node × String)) (f : Nat) (name : String)
    (st : DfsState) (hvis : name ∉ st.visited) (p : Node × String)
    (hdl : dictLookup g name = some p) :
    visit g (f + 1) name st =
      ⟨(visitFold g f (nodeUsesList p.1) ⟨name :: st.visited, st.result⟩).visited,
       (visitFold g f (nodeUsesList p.1) ⟨name :: st.visited, st.result⟩).result ++ [p]⟩ := by
  simp [visit, hvis, hdl, visitFold]

/-- The combined invariant of the DFS relative to a gray set `G` (the call
stack): `visited` is exactly the emitted names plus `G`; emitted entries come
from the input; emitted names are distinct and disjoint from `G`; and every
in-input dependency of an emitted entry occurs strictly earlier. -/
def Inv (g : List (Node × String)) (G : List String) (st : DfsState) : Prop :=
  (∀ x, x ∈ st.visited ↔ (x ∈ resNames st ∨ x ∈ G)) ∧
  (∀ p ∈ st.result, p ∈ g) ∧
  (resNames st).Nodup ∧
  (∀ x ∈ G, x ∉ resNames st) ∧
  OrderInv g st.result

theorem visitFoldAux (g : List (Node × String)) (f : Nat)
    (IH : ∀ (name : String) (st : DfsState) (G : List String),
      ((keysOf g).toFinset \ st.visited.toFinset).card < f →
      Inv g G st →
      (∀ x ∈ G, Relation.TransGen (EdgeRel g) x name) →
      name ∈ keysOf g →
      (∃ pre, (visit g f name st).result = st.result ++ pre) ∧
      st.visited ⊆ (visit g f name st).visited ∧
      Inv g G (visit g f name st) ∧
      name ∈ resNames (visit g f name st)) :
    ∀ (us : List String) (st : DfsState) (G2 : List String),
      ((keysOf g).toFinset \ st.visited.toFinset).card < f →
      Inv g G2 st →
      (∀ u ∈ us, u ∈ keysOf g → ∀ x ∈ G2, Relation.TransGen (EdgeRel g) x u) →
      (∃ pre, (visitFold g f us st).result = st.result ++ pre) ∧
      st.visited ⊆ (visitFold g f us st).visited ∧
      Inv g G2 (visitFold g f us st) ∧
      (∀ u ∈ us, u ∈ keysOf g → u ∈ (visitFold g f us st).visited) := by
  intro us
  induction us with
  | nil =>
    intro st G2 _ hInv _
    exact ⟨⟨[], by simp [visitFold]⟩, fun x h => h, hInv, by simp⟩
  | cons u us ih =>
    intro st G2 hfuel hInv hGu
    rw [show visitFold g f (u :: us) st =
      visitFold g f us (if (dictLookup g u).isSome then visit g f u st else st) from rfl]
    by_cases hdu : (dictLookup g u).isSome
    · rw [if_pos hdu]
      have hukey : u ∈ keysOf g := (dictLookup_isSome_iff g u).1 hdu
      obtain ⟨⟨pre1, hpre1⟩, hmono1, hInv1, humem⟩ :=
        IH u st G2 hfuel hInv (hGu u (by simp) hukey) hukey
      obtain ⟨⟨pre2, hpre2⟩, hmono2, hInv2, hcov⟩ := ih (visit g f u st) G2
        (lt_of_le_of_lt (card_sdiff_le_of_subset _ _ _ hmono1) hfuel) hInv1
        (fun u2 hu2 hk x hx => hGu u2 (by simp [hu2]) hk x hx)
      refine ⟨⟨pre1 ++ pre2, by rw [hpre2, hpre1, List.append_assoc]⟩,
        fun x hx => hmono2 (hmono1 hx), hInv2, ?_⟩
      intro u2 hu2 hk
      rcases List.mem_cons.1 hu2 with rfl | hu2'
      · have hres : u2 ∈ resNames (visitFold g f us (visit g f u2 st)) := by
          have : resNames (visitFold g f us (visit g f u2 st)) =
              resNames (visit g f u2 st) ++ pre2.map (fun p => p.1.name) := by
            rw [resNames, hpre2, List.map_append]
            rfl
          rw [this]
          exact List.mem_append_left _ humem
        exact (hInv2.1 u2).2 (Or.inl hres)
      · exact hcov u2 hu2' hk
    · rw [if_neg hdu]
      obtain ⟨hp, hm, hI, hc⟩ := ih st G2 hfuel hInv
        (fun u2 hu2 hk x hx => hGu u2 (by simp [hu2]) hk x hx)
      refine ⟨hp, hm, hI, ?_⟩
      intro u2 hu2 hk
      rcases List.mem_cons.1 hu2 with rfl | hu2'
      · exact absurd ((dictLookup_isSome_iff g u2).2 hk) hdu
      · exact hc u2 hu2' hk

theorem visit_spec (g : List (Node × String))
    (hacyc : ∀ a, ¬ Relation.TransGen (EdgeRel g) a a) :
    ∀ (fuel : Nat) (name : String) (st : DfsState) (G : List String),
      ((keysOf g).toFinset \ st.visited.toFinset).card < fuel →
      Inv g G st →
      (∀ x ∈ G, Relation.TransGen (EdgeRel g) x name) →
      name ∈ keysOf g →
      (∃ pre, (visit g fuel name st).result = st.result ++ pre) ∧
      st.visited ⊆ (visit g fuel name st).visited ∧
      Inv g G (visit g fuel name st) ∧
      name ∈ resNames (visit g fuel name st) := by
  intro fuel
  induction fuel with
  | zero =>
    intro name st G hfuel _ _ _
    omega
  | succ f ih =>
    intro name st G hfuel hInv hG hkey
    obtain ⟨hI1, hI2, hI3, hI4, hI5⟩ := hInv
    have hnameG : name ∉ G := fun hmem => hacyc name (hG name hmem)
    by_cases hvis : name ∈ st.visited
    · have heq : visit g (f + 1) name st = st := by simp [visit, hvis]
      rw [heq]
      refine ⟨⟨[], by simp⟩, fun x h => h, ⟨hI1, hI2, hI3, hI4, hI5⟩, ?_⟩
      rcases (hI1 name).1 hvis with h | h
      · exact h
      · exact absurd h hnameG
    · rcases hdl : dictLookup g name with _ | p
      · have hs := (dictLookup_isSome_iff g name).2 hkey
        rw [hdl] at hs
        simp at hs
      · have hpg := dictLookup_eq_some g name p hdl
        have hnres : name ∉ resNames st := fun h => hvis ((hI1 name).2 (Or.inl h))
        have hInv1 : Inv g (name :: G) ⟨name :: st.visited, st.result⟩ := by
          refine ⟨?_, hI2, hI3, ?_, hI5⟩
          · intro x
            constructor
            · intro hx
              rcases List.mem_cons.1 hx with rfl | hx2
              · exact Or.inr (by simp)
              · rcases (hI1 x).1 hx2 with h | h
                · exact Or.inl h
                · exact Or.inr (by simp [h])
            · rintro (h | h)
              · exact List.mem_cons.2 (Or.inr ((hI1 x).2 (Or.inl h)))
              · rcases List.mem_cons.1 h with rfl | h2
                · simp
                · exact List.mem_cons.2 (Or.inr ((hI1 x).2 (Or.inr h2)))
          · intro x hx
            rcases List.mem_cons.1 hx with rfl | hx2
            · exact hnres
            · exact hI4 x hx2
        have hmemdiff : name ∈ (keysOf g).toFinset \ st.visited.toFinset := by
          rw [Finset.mem_sdiff, List.mem_toFinset, List.mem_toFinset]
          exact ⟨hkey, hvis⟩
        have hfuel1 : ((keysOf g).toFinset \
            (⟨name :: st.visited, st.result⟩ : DfsState).visited.toFinset).card < f := by
          have hdiff : (keysOf g).toFinset \ (name :: st.visited).toFinset =
              ((keysOf g).toFinset \ st.visited.toFinset).erase name := by
            ext x
            simp only [Finset.mem_sdiff, Finset.mem_erase, List.mem_toFinset,
              List.mem_cons]
            constructor
            · rintro ⟨hx1, hx2⟩
              exact ⟨fun h => hx2 (Or.inl h), hx1, fun h => hx2 (Or.inr h)⟩
            · rintro ⟨hx1, hx2, hx3⟩
              exact ⟨hx2, fun h => h.elim hx1 hx3⟩
          show ((keysOf g).toFinset \ (name :: st.visited).toFinset).card < f
          rw [hdiff, Finset.card_erase_of_mem hmemdiff]
          have hpos : 0 < ((keysOf g).toFinset \ st.visited.toFinset).card :=
            Finset.card_pos.2 ⟨name, hmemdiff⟩
          omega
        have hGu : ∀ u ∈ nodeUsesList p.1, u ∈ keysOf g →
            ∀ x ∈ name :: G, Relation.TransGen (EdgeRel g) x u := by
          intro u hu hk x hx
          have hedge : EdgeRel g name u := ⟨p, hpg.1, hpg.2, hu, hk⟩
          rcases List.mem_cons.1 hx with rfl | hx2
          · exact Relation.TransGen.single hedge
          · exact Relation.TransGen.tail (hG x hx2) hedge
        obtain ⟨⟨pre2, hpre2⟩, hmono2, hInv2, hcov⟩ :=
          visitFoldAux g f ih (nodeUsesList p.1) ⟨name :: st.visited, st.result⟩
            (name :: G) hfuel1 hInv1 hGu
        obtain ⟨hJ1, hJ2, hJ3, hJ4, hJ5⟩ := hInv2
        rw [visit_succ_eq g f name st hvis p hdl]
        set st2 := visitFold g f (nodeUsesList p.1) ⟨name :: st.visited, st.result⟩ with hst2
        have hnameNotRes2 : name ∉ resNames st2 := hJ4 name (by simp)
        have hnameVis2 : name ∈ st2.visited := hmono2 (by simp)
        have hrn : resNames ⟨st2.visited, st2.result ++ [p]⟩ =
            resNames st2 ++ [name] := by
          rw [resNames, List.map_append]
          simp [resNames, hpg.2]
        refine ⟨?_, ?_, ⟨?_, ?_, ?_, ?_, ?_⟩, ?_⟩
        · exact ⟨pre2 ++ [p], by
            show st2.result ++ [p] = st.result ++ (pre2 ++ [p])
            rw [hpre2]
            simp [List.append_assoc]⟩
        · intro x hx
          exact hmono2 (List.mem_cons.2 (Or.inr hx))
        · intro x
          rw [hrn]
          constructor
          · intro hx
            rcases (hJ1 x).1 hx with h | h
            · exact Or.inl (List.mem_append_left _ h)
            · rcases List.mem_cons.1 h with rfl | h2
              · exact Or.inl (List.mem_append_right _ (by simp))
              · exact Or.inr h2
          · rintro (h | h)
            · rcases List.mem_append.1 h with h2 | h2
              · exact (hJ1 x).2 (Or.inl h2)
              · simp only [List.mem_singleton] at h2
                subst h2
                exact hnameVis2
            · exact (hJ1 x).2 (Or.inr (List.mem_cons.2 (Or.inr h)))
        · intro q hq
          rcases List.mem_append.1 hq with h | h
          · exact hJ2 q h
          · simp only [List.mem_singleton] at h
            subst h
            exact hpg.1
        · rw [hrn]
          refine List.Nodup.append hJ3 (List.nodup_singleton _) ?_
          intro a ha hb
          simp only [List.mem_singleton] at hb
          subst hb
          exact hnameNotRes2 ha
        · intro x hx
          rw [hrn]
          intro hmem
          rcases List.mem_append.1 hmem with h | h
          · exact hJ4 x (List.mem_cons.2 (Or.inr hx)) h
          · simp only [List.mem_singleton] at h
            subst h
            exact hnameG hx
        · intro i q hq u hu hk
          by_cases hi : i < st2.result.length
          · rw [List.getElem?_append_left hi] at hq
            obtain ⟨j, q2, hji, hjq, hname2⟩ := hJ5 i q hq u hu hk
            exact ⟨j, q2, hji, by rw [List.getElem?_append_left (lt_trans hji hi)]; exact hjq, hname2⟩
          · have hlen : i < st2.result.length + 1 := by
              by_contra hcon
              have : (st2.result ++ [p])[i]? = none := by
                rw [List.getElem?_eq_none]
                simp only [List.length_append, List.length_singleton]
                omega
              rw [this] at hq
              cases hq
            have hieq : i = st2.result.length := by omega
            subst hieq
            have hqp : q = p := by
              have : (st2.result ++ [p])[st2.result.length]? = some p := by
                rw [List.getElem?_append_right (le_refl _)]
                simp
              rw [this] at hq
              cases hq
              rfl
            rw [hqp] at hu
            have huvis : u ∈ st2.visited := hcov u hu hk
            rcases (hJ1 u).1 huvis with h | h
            · obtain ⟨q2, hq2mem, hname2⟩ := List.mem_map.1 h
              obtain ⟨j, hjq⟩ := List.mem_iff_getElem?.1 hq2mem
              have hjlen : j < st2.result.length := by
                rcases List.getElem?_eq_some.1 hjq with ⟨hlt, _⟩
                exact hlt
              exact ⟨j, q2, hjlen,
                by rw [List.getElem?_append_left hjlen]; exact hjq, hname2⟩
            · rcases List.mem_cons.1 h with rfl | h2
              · exact absurd (Relation.TransGen.single
                  (⟨p, hpg.1, hpg.2, hu, hk⟩ : EdgeRel g u u)) (hacyc u)
              · exact absurd (Relation.TransGen.tail (hG u h2)
                  (⟨p, hpg.1, hpg.2, hu, hk⟩ : EdgeRel g name u)) (hacyc u)
        · rw [hrn]
          exact List.mem_append_right _ (by simp)

theorem topFold_spec (g : List (Node × String))
    (hacyc : ∀ a, ¬ Relation.TransGen (EdgeRel g) a a) :
    ∀ (entries : List (Node × String)), (∀ p ∈ entries, p ∈ g) →
      ∀ st : DfsState, Inv g [] st →
      (∃ pre, (entries.foldl (fun s p => visit g (g.length + 1) p.1.name s) st).result =
        st.result ++ pre) ∧
      Inv g [] (entries.foldl (fun s p => visit g (g.length + 1) p.1.name s) st) ∧
      (∀ p ∈ entries, p.1.name ∈
        resNames (entries.foldl (fun s p => visit g (g.length + 1) p.1.name s) st)) := by
  intro entries
  induction entries with
  | nil =>
    intro _ st hInv
    exact ⟨⟨[], by simp⟩, hInv, by simp⟩
  | cons p rest ih =>
    intro hent st hInv
    have hfuel : ((keysOf g).toFinset \ st.visited.toFinset).card < g.length + 1 := by
      have h1 : ((keysOf g).toFinset \ st.visited.toFinset).card ≤ (keysOf g).toFinset.card :=
        Finset.card_le_card Finset.sdiff_subset
      have h2 : (keysOf g).toFinset.card ≤ (keysOf g).length := (keysOf g).toFinset_card_le
      have h3 : (keysOf g).length = g.length := by simp [keysOf]
      omega
    have hkey : p.1.name ∈ keysOf g :=
      List.mem_map.2 ⟨p, hent p (by simp), rfl⟩
    obtain ⟨⟨pre1, hpre1⟩, _, hInv1, hmem1⟩ :=
      visit_spec g hacyc (g.length + 1) p.1.name st [] hfuel hInv
        (fun x hx => absurd hx (List.not_mem_nil x)) hkey
    obtain ⟨⟨pre2, hpre2⟩, hInv2, hcov2⟩ :=
      ih (fun q hq => hent q (by simp [hq])) (visit g (g.length + 1) p.1.name st) hInv1
    rw [show (p :: rest).foldl (fun s p => visit g (g.length + 1) p.1.name s) st =
      rest.foldl (fun s p => visit g (g.length + 1) p.1.name s)
        (visit g (g.length + 1) p.1.name st) from rfl]
    refine ⟨⟨pre1 ++ pre2, by rw [hpre2, hpre1, List.append_assoc]⟩, hInv2, ?_⟩
    intro q hq
    rcases List.mem_cons.1 hq with rfl | hq2
    · have : resNames (rest.foldl (fun s p => visit g (g.length + 1) p.1.name s)
          (visit g (g.length + 1) q.1.name st)) =
          resNames (visit g (g.length + 1) q.1.name st) ++
            pre2.map (fun p => p.1.name) := by
        rw [resNames, hpre2, List.map_append]
        rfl
      rw [this]
      exact List.mem_append_left _ hmem1
    · exact hcov2 q hq2

/-- Claim C5: for an input whose uses-edges restricted to the listed nodes
are acyclic (and whose node identifiers are distinct, as the data-model
invariant guarantees), `topological_sort` returns a permutation of its input
in which every direct dependency (the union of statement and proof `uses`)
that is present in the input appears strictly earlier than its dependent. -/
theorem topological_sort_spec (g : List (Node × String))
    (hnodup : (g.map (fun p => p.1.name)).Nodup)
    (hacyc : ∀ a, ¬ Relation.TransGen (EdgeRel g) a a) :
    (topological_sort g).Perm g ∧
    ∀ (i j : Nat) (hi : i < (topological_sort g).length)
      (hj : j < (topological_sort g).length),
      ((topological_sort g).get ⟨j, hj⟩).1.name ∈
        nodeUsesList ((topological_sort g).get ⟨i, hi⟩).1 →
      j < i := by
  have h0 : Inv g [] ⟨[], []⟩ := by
    refine ⟨by simp [resNames], by simp, by simp [resNames], by simp, ?_⟩
    intro i q hq
    simp at hq
  obtain ⟨⟨pre, hpre⟩, hInvF, hcovF⟩ := topFold_spec g hacyc g (fun p hp => hp) ⟨[], []⟩ h0
  obtain ⟨hF1, hF2, hF3, hF4, hF5⟩ := hInvF
  have hRdef : topological_sort g =
      (g.foldl (fun s p => visit g (g.length + 1) p.1.name s) ⟨[], []⟩).result := rfl
  have hRnames : (topological_sort g).map (fun p => p.1.name) =
      resNames (g.foldl (fun s p => visit g (g.length + 1) p.1.name s) ⟨[], []⟩) := rfl
  have hRnamesNodup : ((topological_sort g).map (fun p => p.1.name)).Nodup := by
    rw [hRnames]
    exact hF3
  have hsub1 : topological_sort g ⊆ g := by
    intro p hp
    exact hF2 p hp
  constructor
  · have hRnodup : (topological_sort g).Nodup := List.Nodup.of_map _ hRnamesNodup
    have hgnodup : g.Nodup := List.Nodup.of_map _ hnodup
    have hsub2 : g ⊆ topological_sort g := by
      intro p hp
      have hmem : p.1.name ∈ (topological_sort g).map (fun q => q.1.name) := by
        rw [hRnames]
        exact hcovF p hp
      obtain ⟨q, hq, hname⟩ := List.mem_map.1 hmem
      have hqg : q ∈ g := hsub1 hq
      have hqp : q = p := List.inj_on_of_nodup_map hnodup hqg hp hname
      rwa [← hqp]
    exact (hRnodup.subperm hsub1).antisymm (hgnodup.subperm hsub2)
  · intro i j hi hj hdep
    have hq : (topological_sort g)[i]? = some ((topological_sort g).get ⟨i, hi⟩) := by
      rw [List.getElem?_eq_getElem hi]
      rfl
    have hjmem : (topological_sort g).get ⟨j, hj⟩ ∈ topological_sort g :=
      List.get_mem _ j hj
    have hkmem : ((topological_sort g).get ⟨j, hj⟩).1.name ∈ keysOf g :=
      List.mem_map.2 ⟨_, hsub1 hjmem, rfl⟩
    obtain ⟨j2, q2, hj2i, hj2q, hname2⟩ := hF5 i ((topological_sort g).get ⟨i, hi⟩)
      hq _ hdep hkmem
    have hj2len : j2 < (topological_sort g).length := by
      rcases List.getElem?_eq_some.1 hj2q with ⟨hlt, _⟩
      exact hlt
    have hgetj2 : (topological_sort g).get ⟨j2, hj2len⟩ = q2 := by
      rcases List.getElem?_eq_some.1 hj2q with ⟨hlt, heq⟩
      exact heq
    have hnameeq : ((topological_sort g).map (fun p => p.1.name)).get
        ⟨j2, by simpa using hj2len⟩ =
        ((topological_sort g).map (fun p => p.1.name)).get ⟨j, by simpa using hj⟩ := by
      rw [List.get_map, List.get_map]
      show ((topological_sort g).get ⟨j2, hj2len⟩).1.name = _
      rw [hgetj2, hname2]
    have hj2j : j2 = j := by
      have := (hRnamesNodup.get_inj_iff).1 hnameeq
      simpa using this
    omega

/-- A concrete two-node acyclic input for exercising `topological_sort`:
node `a` uses node `b`. -/
def demoNodeA : Node :=
  ⟨"a", ⟨true, "", {"b"}, ∅, "theorem"⟩, none, false, none, none⟩

def demoNodeB : Node :=
  ⟨"b", ⟨true, "", ∅, ∅, "theorem"⟩, none, false, none, none⟩

def demoTopG : List (Node × String) := [(demoNodeA, "da"), (demoNodeB, "db")]

theorem demoTopG_edge {x y : String} (h : EdgeRel demoTopG x y) :
    x = "a" ∧ y = "b" := by
  obtain ⟨pa, hpa, hname, hy, _⟩ := h
  rcases List.mem_cons.1 hpa with rfl | hpa2
  · have husesA : nodeUsesList demoNodeA = ["b"] := by
      simp [nodeUsesList, demoNodeA, Finset.sort_singleton]
    rw [husesA] at hy
    exact ⟨hname.symm, by simpa using hy⟩
  · rcases List.mem_cons.1 hpa2 with rfl | hpa3
    · have husesB : nodeUsesList demoNodeB = [] := by
        simp [nodeUsesList, demoNodeB, Finset.sort_empty]
      rw [husesB] at hy
      exact absurd hy (List.not_mem_nil y)
    · exact absurd hpa3 (List.not_mem_nil pa)

theorem demoTopG_acyc : ∀ a, ¬ Relation.TransGen (EdgeRel demoTopG) a a := by
  have key : ∀ x y, Relation.TransGen (EdgeRel demoTopG) x y → x = "a" ∧ y = "b" := by
    intro x y h
    induction h with
    | single h1 => exact demoTopG_edge h1
    | tail _ h2 ih =>
      obtain ⟨hx, hb⟩ := ih
      obtain ⟨hb2, hy⟩ := demoTopG_edge h2
      rw [hb] at hb2
      exact absurd hb2 (by decide)
  intro a h
  obtain ⟨h1, h2⟩ := key a a h
  rw [h1] at h2
  exact absurd h2 (by decide)

theorem topological_sort_spec_witness :
    (demoTopG.map (fun p => p.1.name)).Nodup ∧
    (topological_sort demoTopG).Perm demoTopG :=
  ⟨by decide, (topological_sort_spec demoTopG (by decide) demoTopG_acyc).1⟩

/-- The filesystem seen by `read_latex_file`, as an association list from
path to file contents.  `fsRead` is `Path.read_text` (first binding wins),
`fsExists` is `Path.exists`. -/
def fsRead (fs : List (String × String)) (p : String) : Option String :=
  (fs.find? (fun q => q.1 == p)).map (fun q => q.2)

def fsExists (fs : List (String × String)) (p : String) : Bool :=
  (fsRead fs p).isSome

/-- Python `input_path.endswith(".tex")`. -/
def endsWithTex (cs : List Char) : Bool :=
  ".tex".data.reverse.isPrefixOf cs.reverse

/-- Python `Path.parent`: drop the final path component. -/
def parentDir (p : String) : String :=
  ⟨((p.data.reverse.dropWhile (· != '/')).drop 1).reverse⟩

/-- The `re.sub` pass of `_read` over one file body: scan left to right for
matches of the input-command regex (backslash, the word input, optional
whitespace, a braced group), and for each match run `replace_input`, which
strips the captured group, appends `.tex` when missing, resolves against
`root`, and — when the file exists — recursively reads it via `rd`,
threading the shared `seen` set through the calls in document order.
`fuel` bounds the scan; the character count of the text suffices. -/
def replaceInputFuel (fs : List (String × String)) (root : String)
    (rd : String → Finset String → String × Finset String) :
    Nat → List Char → Finset String → List Char × Finset String
  | 0, cs, seen => (cs, seen)
  | _ + 1, [], seen => ([], seen)
  | fuel + 1, c :: rest, seen =>
    match matchCmdAt "input".data (c :: rest) with
    | some (_, group1, rest2) =>
      let p := pyStripList group1
      let p2 := if endsWithTex p then p else p ++ ".tex".data
      let inputFile := root ++ "/" ++ (⟨p2⟩ : String)
      if fsExists fs inputFile then
        let r := rd inputFile seen
        let t := replaceInputFuel fs root rd fuel rest2 r.2
        (r.1.data ++ t.1, t.2)
      else
        replaceInputFuel fs root rd fuel rest2 seen
    | none =>
      let t := replaceInputFuel fs root rd fuel rest seen
      (c :: t.1, t.2)

/-- The inner `_read` of `read_latex_file`, with explicit recursion fuel.
A file already in `seen` yields `""` (after the circular-input warning)
and leaves `seen` unchanged; otherwise the file is added to `seen`, its
text is read and its input commands are resolved by `replaceInputFuel`.
The `none` branch of the text lookup is where Python's `read_text` would
raise; every recursive call site guards it with an existence check. -/
def readFuel (fs : List (String × String)) (root : String) :
    Nat → String → Finset String → String × Finset String
  | 0, _, seen => ("", seen)
  | fuel + 1, file, seen =>
    if file ∈ seen then ("", seen)
    else
      match fsRead fs file with
      | none => ("", seen)
      | some text =>
        let r := replaceInputFuel fs root (readFuel fs root fuel)
          text.data.length text.data (insert file seen)
        (⟨r.1⟩, r.2)

/-- `parse_latex.read_latex_file`.  Each nested `_read` call that proceeds
past its guards inserts a distinct existing file into `seen`, so recursion
depth is bounded by the number of files and `fs.length + 1` fuel is never
exhausted on a branch whose result differs from the fuel-0 result. -/
def read_latex_file (fs : List (String × String)) (file : String) : String :=
  (readFuel fs (parentDir file) (fs.length + 1) file ∅).1

/-- An acyclic inclusion diamond: `main` inputs `a` then `b`, and each of
`a` and `b` inputs `c`. -/
def demoFS : List (String × String) :=
  [("r/main.tex", "\\input\x7ba\x7d\\input\x7bb\x7d"),
   ("r/a.tex", "\\input\x7bc\x7dX"),
   ("r/b.tex", "\\input\x7bc\x7dY"),
   ("r/c.tex", "C")]

/-- Claim C10: inclusion resolution treats any file already read anywhere
earlier in the traversal as a re-visit, even when the inclusion graph is
acyclic: a file in the shared `seen` set is replaced by empty text with the
set unchanged, and on the acyclic diamond fixture (`main` inputs `a` and
`b`, each of which inputs `c`, whose body is `C`) the file `c` is inlined
only at its first occurrence, giving `CXY` rather than `CXCY`. -/
theorem read_latex_file_first_occurrence_only :
    (∀ (fs : List (String × String)) (root : String) (fuel : Nat)
      (file : String) (seen : Finset String), file ∈ seen →
      readFuel fs root (fuel + 1) file seen = ("", seen)) ∧
    read_latex_file demoFS "r/main.tex" = "CXY" := by
  constructor
  · intro fs root fuel file seen h
    simp only [readFuel, if_pos h]
  · decide

theorem read_latex_file_first_occurrence_only_witness :
    readFuel demoFS "r" 1 "r/c.tex" {"r/c.tex"} = ("", {"r/c.tex"}) ∧
    read_latex_file demoFS "r/main.tex" = "CXY" :=
  ⟨read_latex_file_first_occurrence_only.1 demoFS "r" 0 "r/c.tex"
      {"r/c.tex"} (by decide),
   read_latex_file_first_occurrence_only.2⟩

end Blueprint
